import Mathlib

/-!
Shallow embedding of the creagen bitmap / contour-extraction core
(`src/Bitmap.ts`, `src/Bitmap/zhangSuenThinning.ts`, `src/Tree.ts`,
`src/ContourExtractor.ts`) together with proofs of the specified
properties.

Machine integers are modelled as `Nat`/`Int` with explicit wrapping where
the JavaScript semantics makes it observable:
* `Uint8Array` byte buffers are `List Nat`; out-of-range reads yield the
  JS `undefined`, which every use site here coerces to `0` through a
  bitwise operator, and out-of-range writes are silently dropped
  (typed-array semantics), which `List.set` models exactly;
* `Int8Array` buffers are `List Nat` of raw bytes read through a signed
  reinterpretation;
* the JS shift/mask operators coerce through ToInt32, modelled explicitly.
-/

namespace Creagen

/-! ## Byte buffers (`Uint8Array`) -/

/-- Read one byte of a `Uint8Array`-backed buffer.  Out-of-range reads give
`undefined` in JS; every caller feeds the byte into `>>`/`&`/`|`, which
coerce `undefined` to `0`, so the default is `0`. -/
def byteGet (d : List Nat) (i : Nat) : Nat := d.getD i 0

/-- Bit `i` of the packed buffer: byte `i >> 3`, bit `i & 7`, tested with
`((byte >> bit) & 1) > 0` as in `Bitmap.get`. -/
def bitGet (d : List Nat) (i : Nat) : Bool := (byteGet d (i / 8)) >>> (i % 8) &&& 1 == 1

/-- Write bit `i` of the packed buffer, as in `Bitmap.set`:
`data[byteIndex] |= 1 << bitIndex` resp. `data[byteIndex] &= ~(1 << bitIndex)`.
JS `~` complements all 32 bits, but a stored byte is only ever read back at
bit positions `< 8`, so masking with the 8-bit complement `255 ^^^ (1 <<< b)`
is read-back equivalent.  `List.set` drops out-of-range writes exactly like a
typed array. -/
def bitSet (d : List Nat) (i : Nat) (v : Bool) : List Nat :=
  d.set (i / 8)
    (if v then byteGet d (i / 8) ||| (1 <<< (i % 8))
     else byteGet d (i / 8) &&& (255 ^^^ (1 <<< (i % 8))))

theorem bitGet_eq_testBit (d : List Nat) (i : Nat) :
    bitGet d i = (byteGet d (i / 8)).testBit (i % 8) := by
  rw [bitGet, Nat.testBit_to_div_mod, Nat.and_one_is_mod, Nat.shiftRight_eq_div_pow]
  cases Nat.decEq (byteGet d (i / 8) / 2 ^ (i % 8) % 2) 1 with
  | isTrue h => simp [h]
  | isFalse h => simp [h]

theorem bitSet_length (d : List Nat) (i : Nat) (v : Bool) :
    (bitSet d i v).length = d.length := by
  simp [bitSet]

theorem byteGet_set_self (d : List Nat) (i b : Nat) (h : i < d.length) :
    byteGet (d.set i b) i = b := by
  simp [byteGet, List.getElem?_set_self h]

theorem byteGet_set_ne (d : List Nat) (i j b : Nat) (h : j ≠ i) :
    byteGet (d.set i b) j = byteGet d j := by
  simp [byteGet, List.getElem?_set_ne (Ne.symm h)]

theorem testBit_byte_or (byte b k : Nat) (hk : k ≠ b) :
    (byte ||| (1 <<< b)).testBit k = byte.testBit k := by
  rw [Nat.testBit_or, Nat.shiftLeft_eq, one_mul, Nat.testBit_two_pow]
  simp [Ne.symm hk]

theorem testBit_byte_or_self (byte b : Nat) :
    (byte ||| (1 <<< b)).testBit b = true := by
  rw [Nat.testBit_or, Nat.shiftLeft_eq, one_mul, Nat.testBit_two_pow]
  simp

theorem testBit_byte_and_mask (byte b k : Nat) (hk : k ≠ b) (hk8 : k < 8) :
    (byte &&& (255 ^^^ (1 <<< b))).testBit k = byte.testBit k := by
  have h255 : (255 : Nat) = 2 ^ 8 - 1 := by norm_num
  rw [Nat.testBit_and, Nat.testBit_xor, h255, Nat.testBit_two_pow_sub_one,
    Nat.shiftLeft_eq, one_mul, Nat.testBit_two_pow]
  simp [hk8, Ne.symm hk]

theorem testBit_byte_and_mask_self (byte b : Nat) (hb : b < 8) :
    (byte &&& (255 ^^^ (1 <<< b))).testBit b = false := by
  have h255 : (255 : Nat) = 2 ^ 8 - 1 := by norm_num
  rw [Nat.testBit_and, Nat.testBit_xor, h255, Nat.testBit_two_pow_sub_one,
    Nat.shiftLeft_eq, one_mul, Nat.testBit_two_pow]
  simp [hb]

/-- Writing bit `i` does not disturb any other bit `j`. -/
theorem bitGet_bitSet_ne (d : List Nat) (i j : Nat) (v : Bool) (h : j ≠ i) :
    bitGet (bitSet d i v) j = bitGet d j := by
  rw [bitGet_eq_testBit, bitGet_eq_testBit, bitSet]
  by_cases hd : j / 8 = i / 8
  · rcases Nat.lt_or_ge (i / 8) d.length with hlen | hlen
    · rw [hd, byteGet_set_self d _ _ hlen]
      have hbits : j % 8 ≠ i % 8 := by
        intro hc
        exact h (by omega)
      cases v with
      | true =>
        rw [if_pos rfl]
        exact testBit_byte_or _ _ _ hbits
      | false =>
        rw [if_neg Bool.false_ne_true]
        exact testBit_byte_and_mask _ _ _ hbits (Nat.mod_lt _ (by norm_num))
    · rw [List.set_eq_of_length_le hlen]
  · rw [byteGet_set_ne d _ _ _ hd]

/-- Writing bit `i` to its byte-range interior sets exactly that bit. -/
theorem bitGet_bitSet_self (d : List Nat) (i : Nat) (v : Bool) (h : i / 8 < d.length) :
    bitGet (bitSet d i v) i = v := by
  rw [bitGet_eq_testBit, bitSet, byteGet_set_self d _ _ h]
  cases v with
  | true =>
    rw [if_pos rfl]
    exact testBit_byte_or_self _ _
  | false =>
    rw [if_neg Bool.false_ne_true]
    exact testBit_byte_and_mask_self _ _ (Nat.mod_lt _ (by norm_num))

/-- Clearing a bit always reads back `false`: in byte range the bit is cleared,
out of range the write is dropped but the read is `false` anyway. -/
theorem bitGet_bitSet_false (d : List Nat) (i : Nat) :
    bitGet (bitSet d i false) i = false := by
  rcases Nat.lt_or_ge (i / 8) d.length with h | h
  · exact bitGet_bitSet_self d i false h
  · rw [bitSet, List.set_eq_of_length_le h, bitGet_eq_testBit]
    have hz : byteGet d (i / 8) = 0 := by
      simp [byteGet, List.getElem?_eq_none h]
    rw [hz]
    simp

/-- A set-to-`false` never turns a bit on. -/
theorem bitGet_bitSet_false_mono (d : List Nat) (i j : Nat) :
    bitGet (bitSet d i false) j = true → bitGet d j = true := by
  intro hj
  by_cases h : j = i
  · rw [h, bitGet_bitSet_false] at hj
    cases hj
  · rwa [bitGet_bitSet_ne d i j false h] at hj

/-! ## Bitmap (`src/Bitmap.ts`) -/

/-- Packed-bit bitmap: `width`, `height`, one bit per cell in row-major order,
backed by a `Uint8Array` (`data`). -/
structure Bitmap where
  width : Nat
  height : Nat
  data : List Nat
deriving DecidableEq

namespace Bitmap

/-- `Bitmap.create(w, h)`: all-zero buffer of `Math.ceil(w * h / 8)` bytes. -/
def create (width height : Nat) : Bitmap :=
  ⟨width, height, List.replicate ((width * height + 7) / 8) 0⟩

/-- `Bitmap.fromUnit8array(width, height, data)`: wraps the given buffer
without any validation (`new Bitmap(width, height, data)` directly). -/
def fromUnit8array (width height : Nat) (data : List Nat) : Bitmap :=
  ⟨width, height, data⟩

/-- `bounds(x, y)`: non-throwing range predicate. -/
def bounds (b : Bitmap) (x y : Int) : Bool :=
  !(decide (x < 0) || decide ((b.width : Int) ≤ x) ||
    decide (y < 0) || decide ((b.height : Int) ≤ y))

/-- Value of cell `(x, y)` for in-bounds coordinates: bit `y * width + x` of
the packed buffer.  The source `get` first runs `coordsToIndex`, which throws
a `RangeError` exactly when `bounds` fails; see `get?` for the checked
version. -/
def get (b : Bitmap) (x y : Nat) : Bool := bitGet b.data (y * b.width + x)

/-- `get(x, y)` with the `coordsToIndex` bounds check: `none` models the
thrown `RangeError`. -/
def get? (b : Bitmap) (x y : Int) : Option Bool :=
  if b.bounds x y then some (b.get x.toNat y.toNat) else none

/-- `set(x, y, value)` for in-bounds coordinates (the source throws otherwise,
see `get?` for the check, which is identical). -/
def set (b : Bitmap) (x y : Nat) (v : Bool) : Bitmap :=
  ⟨b.width, b.height, bitSet b.data (y * b.width + x) v⟩

/-- `clone()`: fresh buffer with the same bytes; as a value it is the same
bitmap. -/
def clone (b : Bitmap) : Bitmap := ⟨b.width, b.height, b.data⟩

theorem clone_eq (b : Bitmap) : b.clone = b := rfl

theorem get?_eq_some (b : Bitmap) (x y : Nat) (hx : x < b.width) (hy : y < b.height) :
    b.get? x y = some (b.get x y) := by
  have hb : b.bounds x y = true := by
    simp only [bounds, Bool.not_eq_true', Bool.or_eq_false_iff, decide_eq_false_iff_not]
    refine ⟨⟨⟨?_, ?_⟩, ?_⟩, ?_⟩ <;> omega
  simp [get?, hb]

@[simp] theorem set_width (b : Bitmap) (x y : Nat) (v : Bool) : (b.set x y v).width = b.width := rfl

@[simp] theorem set_height (b : Bitmap) (x y : Nat) (v : Bool) : (b.set x y v).height = b.height := rfl

/-- In-bounds coordinates are uniquely recoverable from the row-major index. -/
theorem index_inj (w : Nat) (x y x' y' : Nat) (hx : x < w) (hx' : x' < w)
    (h : y * w + x = y' * w + x') : x = x' ∧ y = y' := by
  have e1 : (y * w + x) % w = x := by
    rw [Nat.add_comm, Nat.add_mul_mod_self_right, Nat.mod_eq_of_lt hx]
  have e2 : (y' * w + x') % w = x' := by
    rw [Nat.add_comm, Nat.add_mul_mod_self_right, Nat.mod_eq_of_lt hx']
  have hxx : x = x' := by rw [← e1, ← e2, h]
  refine ⟨hxx, ?_⟩
  have hw : 0 < w := Nat.lt_of_le_of_lt (Nat.zero_le x) hx
  have hyy : y * w = y' * w := by omega
  exact Nat.eq_of_mul_eq_mul_right hw hyy

end Bitmap

/-! ## Zhang-Suen thinning (`src/Bitmap/zhangSuenThinning.ts`) -/

/-- The eight neighbors `p2..p9` of `(x, y)`, clockwise from north, exactly as
read in the source.  The marking loops only evaluate this at `1 ≤ x` and
`1 ≤ y`, where the `Nat` subtractions agree with the JS arithmetic. -/
def neighbors (b : Bitmap) (x y : Nat) : List Bool :=
  [b.get x (y - 1), b.get (x + 1) (y - 1), b.get (x + 1) y, b.get (x + 1) (y + 1),
   b.get x (y + 1), b.get (x - 1) (y + 1), b.get (x - 1) y, b.get (x - 1) (y - 1)]

/-- Number of 0-to-1 transitions reading `p2..p9` cyclically
(`neighbors[i]`, `neighbors[(i+1) % 8]`). -/
def transitions (nb : List Bool) : Nat :=
  (List.range nb.length).countP fun i => !nb.getD i false && nb.getD ((i + 1) % nb.length) false

/-- Marking condition of one sub-pass for pixel `(x, y)`: foreground,
8-neighbor count in `[2, 6]`, exactly one cyclic 0-to-1 transition, and the
pass-specific corner conditions (`pass === 0` checks `p2/p4/p6` and `p4/p6/p8`,
every other pass checks `p2/p4/p8` and `p2/p6/p8`). -/
def markedCell (firstPass : Bool) (b : Bitmap) (x y : Nat) : Bool :=
  if !b.get x y then false
  else
    let nb := neighbors b x y
    let numNeighbors := nb.countP id
    if numNeighbors < 2 || numNeighbors > 6 then false
    else if transitions nb ≠ 1 then false
    else
      let p2 := b.get x (y - 1)
      let p4 := b.get (x + 1) y
      let p6 := b.get x (y + 1)
      let p8 := b.get (x - 1) y
      if firstPass then (!p2 || !p4 || !p6) && (!p4 || !p6 || !p8)
      else (!p2 || !p4 || !p8) && (!p2 || !p6 || !p8)

/-- The `toRemove` list of one sub-pass, in scan order
(`y` from `1` to `height - 2`, `x` from `1` to `width - 2`). -/
def subPassMarks (firstPass : Bool) (b : Bitmap) : List (Nat × Nat) :=
  (List.range' 1 (b.height - 2)).flatMap fun y =>
    (List.range' 1 (b.width - 2)).filterMap fun x =>
      if markedCell firstPass b x y then some (x, y) else none

/-- Simultaneous removal at the end of a sub-pass: clear every marked pixel. -/
def removeMarked (b : Bitmap) (l : List (Nat × Nat)) : Bitmap :=
  l.foldl (fun acc c => acc.set c.1 c.2 false) b

/-- One sub-pass: mark every pixel first, then remove; the returned flag is
`toRemove.length > 0`. -/
def subPass (firstPass : Bool) (b : Bitmap) : Bitmap × Bool :=
  (removeMarked b (subPassMarks firstPass b), !(subPassMarks firstPass b).isEmpty)

/-- One iteration of the outer `while (changed)` loop.  The source runs THREE
sub-passes (`for (let pass = 0; pass < 3; pass++)`): the first with the
`pass === 0` corner conditions and the remaining two with the alternate
conditions; `changed` is true iff some sub-pass removed a pixel. -/
def fullPass (b : Bitmap) : Bitmap × Bool :=
  let p0 := subPass true b
  let p1 := subPass false p0.1
  let p2 := subPass false p1.1
  (p2.1, p0.2 || p1.2 || p2.2)

/-- Number of set cells; the variant of the outer loop (a changing pass
clears at least one set cell and never sets one, `fullPass_popcount_lt`). -/
def popcount (b : Bitmap) : Nat :=
  (List.range (b.width * b.height)).countP fun i => bitGet b.data i

/-- The outer `while (changed)` loop, driven by fuel; `popcount b + 1` fuel
always suffices, so the fuelled loop coincides with the source's unbounded
loop. -/
def thinLoop : Nat → Bitmap → Bitmap
  | 0, b => b
  | fuel + 1, b =>
    if (fullPass b).2 then thinLoop fuel (fullPass b).1 else (fullPass b).1

/-- `zhangSuenThinning(map)`: clone the input, then iterate full passes until
one removes nothing. -/
def zhangSuenThinning (b : Bitmap) : Bitmap := thinLoop (popcount b + 1) b.clone

theorem removeMarked_width (l : List (Nat × Nat)) (b : Bitmap) :
    (removeMarked b l).width = b.width := by
  induction l generalizing b with
  | nil => rfl
  | cons c l ih => exact ih (b.set c.1 c.2 false)

theorem removeMarked_height (l : List (Nat × Nat)) (b : Bitmap) :
    (removeMarked b l).height = b.height := by
  induction l generalizing b with
  | nil => rfl
  | cons c l ih => exact ih (b.set c.1 c.2 false)

/-- Sub-pass removal never turns a bit on. -/
theorem removeMarked_mono (l : List (Nat × Nat)) (b : Bitmap) (j : Nat) :
    bitGet (removeMarked b l).data j = true → bitGet b.data j = true := by
  induction l generalizing b with
  | nil => exact id
  | cons c l ih =>
    intro hj
    exact bitGet_bitSet_false_mono _ _ _ (ih (b.set c.1 c.2 false) hj)

/-- Every marked pixel reads back `false` after the removal phase. -/
theorem removeMarked_cleared (l : List (Nat × Nat)) (b : Bitmap) (c : Nat × Nat)
    (hc : c ∈ l) : bitGet (removeMarked b l).data (c.2 * b.width + c.1) = false := by
  induction l generalizing b with
  | nil => cases hc
  | cons d l ih =>
    rcases List.mem_cons.mp hc with hcd | hmem
    · subst hcd
      by_cases hfinal :
          bitGet (removeMarked (b.set c.1 c.2 false) l).data (c.2 * b.width + c.1) = true
      · have h2 := removeMarked_mono l (b.set c.1 c.2 false) _ hfinal
        rw [show (b.set c.1 c.2 false).data = bitSet b.data (c.2 * b.width + c.1) false from rfl,
          bitGet_bitSet_false] at h2
        cases h2
      · exact Bool.not_eq_true _ ▸ Bool.of_not_eq_true hfinal
    · exact ih (b.set d.1 d.2 false) hmem

/-- Cells distinct from every marked pixel are untouched by the removal. -/
theorem removeMarked_other (l : List (Nat × Nat)) (b : Bitmap) (x y : Nat)
    (hx : x < b.width)
    (hl : ∀ c ∈ l, c.1 < b.width ∧ ¬(c.1 = x ∧ c.2 = y)) :
    bitGet (removeMarked b l).data (y * b.width + x) = bitGet b.data (y * b.width + x) := by
  induction l generalizing b with
  | nil => rfl
  | cons d l ih =>
    have hd := hl d (List.mem_cons_self d l)
    have hstep : bitGet (b.set d.1 d.2 false).data (y * b.width + x)
        = bitGet b.data (y * b.width + x) := by
      rw [show (b.set d.1 d.2 false).data = bitSet b.data (d.2 * b.width + d.1) false from rfl]
      refine bitGet_bitSet_ne _ _ _ _ ?_
      intro hidx
      obtain ⟨hx1, hy1⟩ := Bitmap.index_inj b.width x y d.1 d.2 hx hd.1 hidx
      exact hd.2 ⟨hx1.symm, hy1.symm⟩
    calc bitGet (removeMarked (b.set d.1 d.2 false) l).data (y * b.width + x)
        = bitGet (b.set d.1 d.2 false).data (y * b.width + x) :=
          ih (b.set d.1 d.2 false) hx (fun c hc => hl c (List.mem_cons_of_mem d hc))
      _ = bitGet b.data (y * b.width + x) := hstep

theorem markedCell_get (fp : Bool) (b : Bitmap) (x y : Nat)
    (h : markedCell fp b x y = true) : b.get x y = true := by
  by_cases hg : b.get x y = true
  · exact hg
  · rw [markedCell] at h
    rw [Bool.not_eq_true] at hg
    rw [hg] at h
    simp at h

/-- Every mark lies in the scanned interior and was a set pixel. -/
theorem subPassMarks_mem (fp : Bool) (b : Bitmap) (c : Nat × Nat)
    (hc : c ∈ subPassMarks fp b) :
    1 ≤ c.1 ∧ c.1 < b.width - 1 ∧ 1 ≤ c.2 ∧ c.2 < b.height - 1 ∧ b.get c.1 c.2 = true := by
  rw [subPassMarks, List.mem_flatMap] at hc
  obtain ⟨y, hy, hxmem⟩ := hc
  rw [List.mem_range'_1] at hy
  rw [List.mem_filterMap] at hxmem
  obtain ⟨x, hx, hcx⟩ := hxmem
  rw [List.mem_range'_1] at hx
  by_cases hm : markedCell fp b x y = true
  · rw [if_pos hm] at hcx
    obtain rfl : c = (x, y) := by exact (Option.some_inj.mp hcx).symm
    exact ⟨by omega, by omega, by omega, by omega, markedCell_get fp b x y hm⟩
  · rw [if_neg hm] at hcx
    cases hcx

theorem subPass_width (fp : Bool) (b : Bitmap) : (subPass fp b).1.width = b.width :=
  removeMarked_width _ _

theorem subPass_height (fp : Bool) (b : Bitmap) : (subPass fp b).1.height = b.height :=
  removeMarked_height _ _

theorem subPass_mono (fp : Bool) (b : Bitmap) (j : Nat) :
    bitGet (subPass fp b).1.data j = true → bitGet b.data j = true :=
  removeMarked_mono _ _ j

theorem fullPass_width (b : Bitmap) : (fullPass b).1.width = b.width := by
  rw [fullPass]
  rw [subPass_width, subPass_width, subPass_width]

theorem fullPass_height (b : Bitmap) : (fullPass b).1.height = b.height := by
  rw [fullPass]
  rw [subPass_height, subPass_height, subPass_height]

theorem fullPass_mono (b : Bitmap) (j : Nat) :
    bitGet (fullPass b).1.data j = true → bitGet b.data j = true := by
  intro h
  exact subPass_mono true b j (subPass_mono false _ j (subPass_mono false _ j h))

/-- Counting a strictly weaker predicate over a list with a witness of the
difference gives a strictly smaller count. -/
theorem countP_lt_of_witness (l : List Nat) (p q : Nat → Bool)
    (hmono : ∀ a ∈ l, q a = true → p a = true)
    (a0 : Nat) (ha0 : a0 ∈ l) (hp : p a0 = true) (hq : q a0 = false) :
    l.countP q < l.countP p := by
  induction l with
  | nil => cases ha0
  | cons a l ih =>
    rw [List.countP_cons, List.countP_cons]
    rcases List.mem_cons.mp ha0 with heq | hmem
    · rw [← heq, hp, hq, if_pos rfl, if_neg Bool.false_ne_true]
      have hle : l.countP q ≤ l.countP p :=
        List.countP_mono_left fun x hx => hmono x (List.mem_cons_of_mem a hx)
      omega
    · have hle : (if q a = true then 1 else 0) ≤ (if p a = true then 1 else 0) := by
        by_cases hqa : q a = true
        · rw [if_pos hqa, if_pos (hmono a (List.mem_cons_self a l) hqa)]
        · rw [if_neg hqa]
          omega
      have hlt := ih (fun x hx => hmono x (List.mem_cons_of_mem a hx)) hmem
      omega

/-- A sub-pass that reports a change has a witness cell: interior, set before,
cleared after. -/
theorem subPass_changed_witness (fp : Bool) (b : Bitmap) (h : (subPass fp b).2 = true) :
    ∃ c : Nat × Nat, 1 ≤ c.1 ∧ c.1 < b.width - 1 ∧ 1 ≤ c.2 ∧ c.2 < b.height - 1 ∧
      bitGet b.data (c.2 * b.width + c.1) = true ∧
      bitGet (subPass fp b).1.data (c.2 * b.width + c.1) = false := by
  have hne : subPassMarks fp b ≠ [] := by
    intro hnil
    rw [show (subPass fp b).2 = !(subPassMarks fp b).isEmpty from rfl, hnil] at h
    simp at h
  obtain ⟨c, hc⟩ := List.exists_mem_of_ne_nil _ hne
  obtain ⟨h1, h2, h3, h4, hset⟩ := subPassMarks_mem fp b c hc
  refine ⟨c, h1, h2, h3, h4, hset, removeMarked_cleared _ b c hc⟩

theorem index_lt_size (w h x y : Nat) (hx : x < w) (hy : y < h) : y * w + x < w * h := by
  calc y * w + x < y * w + w := by omega
    _ = (y + 1) * w := by ring
    _ ≤ h * w := Nat.mul_le_mul_right w hy
    _ = w * h := Nat.mul_comm h w

/-- A full pass that reports a change strictly decreases the number of set
cells. -/
theorem fullPass_popcount_lt (b : Bitmap) (h : (fullPass b).2 = true) :
    popcount (fullPass b).1 < popcount b := by
  have hw : (fullPass b).1.width = b.width := fullPass_width b
  have hh : (fullPass b).1.height = b.height := fullPass_height b
  rw [popcount, popcount, hw, hh]
  have hflags : (subPass true b).2 = true ∨ (subPass false (subPass true b).1).2 = true ∨
      (subPass false (subPass false (subPass true b).1).1).2 = true := by
    rw [show (fullPass b).2 = ((subPass true b).2 || (subPass false (subPass true b).1).2 ||
      (subPass false (subPass false (subPass true b).1).1).2) from rfl] at h
    rcases Bool.or_eq_true_iff.mp h with h2 | h2
    · rcases Bool.or_eq_true_iff.mp h2 with h3 | h3
      · exact Or.inl h3
      · exact Or.inr (Or.inl h3)
    · exact Or.inr (Or.inr h2)
  have hmono : ∀ j ∈ List.range (b.width * b.height),
      bitGet (fullPass b).1.data j = true → bitGet b.data j = true :=
    fun j _ => fullPass_mono b j
  have hfinal_of_s2 : ∀ j, bitGet (fullPass b).1.data j = true →
      bitGet (subPass false (subPass true b).1).1.data j = true := fun j hj =>
    subPass_mono false _ j hj
  rcases hflags with hch | hch | hch
  · obtain ⟨c, h1, h2, h3, h4, hset, hclr⟩ := subPass_changed_witness true b hch
    refine countP_lt_of_witness _ _ _ hmono (c.2 * b.width + c.1) ?_ hset ?_
    · exact List.mem_range.mpr (index_lt_size _ _ _ _ (by omega) (by omega))
    · by_cases hf : bitGet (fullPass b).1.data (c.2 * b.width + c.1) = true
      · have := subPass_mono false _ _ (hfinal_of_s2 _ hf)
        rw [this] at hclr
        cases hclr
      · exact Bool.of_not_eq_true hf
  · obtain ⟨c, h1, h2, h3, h4, hset, hclr⟩ := subPass_changed_witness false (subPass true b).1 hch
    rw [subPass_width] at h2
    rw [subPass_height] at h4
    have hidx : c.2 * (subPass true b).1.width + c.1 = c.2 * b.width + c.1 := by
      rw [subPass_width]
    rw [hidx] at hset hclr
    refine countP_lt_of_witness _ _ _ hmono (c.2 * b.width + c.1) ?_ ?_ ?_
    · exact List.mem_range.mpr (index_lt_size _ _ _ _ (by omega) (by omega))
    · exact subPass_mono true b _ hset
    · by_cases hf : bitGet (fullPass b).1.data (c.2 * b.width + c.1) = true
      · have := hfinal_of_s2 _ hf
        rw [this] at hclr
        cases hclr
      · exact Bool.of_not_eq_true hf
  · obtain ⟨c, h1, h2, h3, h4, hset, hclr⟩ :=
      subPass_changed_witness false (subPass false (subPass true b).1).1 hch
    rw [subPass_width, subPass_width] at h2
    rw [subPass_height, subPass_height] at h4
    have hidx : c.2 * (subPass false (subPass true b).1).1.width + c.1
        = c.2 * b.width + c.1 := by
      rw [subPass_width, subPass_width]
    rw [hidx] at hset hclr
    refine countP_lt_of_witness _ _ _ hmono (c.2 * b.width + c.1) ?_ ?_ ?_
    · exact List.mem_range.mpr (index_lt_size _ _ _ _ (by omega) (by omega))
    · exact subPass_mono true b _ (subPass_mono false _ _ hset)
    · refine Bool.of_not_eq_true fun hf => ?_
      have h5 : bitGet (subPass false (subPass false (subPass true b).1).1).1.data
          (c.2 * b.width + c.1) = true := hf
      rw [hclr] at h5
      exact Bool.false_ne_true h5

/-- A sub-pass that reports no change leaves the bitmap untouched. -/
theorem subPass_nochange (fp : Bool) (b : Bitmap) (h : (subPass fp b).2 = false) :
    (subPass fp b).1 = b := by
  have hnil : subPassMarks fp b = [] := by
    have h' : (!(subPassMarks fp b).isEmpty) = false := h
    simpa using h'
  rw [show (subPass fp b).1 = removeMarked b (subPassMarks fp b) from rfl, hnil]
  rfl

/-- A full pass that reports no change is the identity. -/
theorem fullPass_nochange (b : Bitmap) (h : (fullPass b).2 = false) :
    (fullPass b).1 = b := by
  rw [show (fullPass b).2 = ((subPass true b).2 || (subPass false (subPass true b).1).2 ||
    (subPass false (subPass false (subPass true b).1).1).2) from rfl] at h
  rw [Bool.or_eq_false_iff, Bool.or_eq_false_iff] at h
  obtain ⟨⟨h0, h1⟩, h2⟩ := h
  have e0 : (subPass true b).1 = b := subPass_nochange true b h0
  rw [show (fullPass b).1 = (subPass false (subPass false (subPass true b).1).1).1 from rfl]
  rw [e0] at h1 h2 ⊢
  have e1 : (subPass false b).1 = b := subPass_nochange false b h1
  rw [e1] at h2 ⊢
  exact subPass_nochange false b h2

/-- With fuel exceeding the number of set cells the loop reaches a state on
which a further full pass reports no change. -/
theorem thinLoop_stable : ∀ (fuel : Nat) (b : Bitmap), popcount b < fuel →
    (fullPass (thinLoop fuel b)).2 = false
  | 0, _, h => absurd h (by omega)
  | fuel + 1, b, h => by
    rw [thinLoop]
    by_cases hch : (fullPass b).2 = true
    · rw [if_pos hch]
      exact thinLoop_stable fuel (fullPass b).1
        (Nat.lt_of_lt_of_le (fullPass_popcount_lt b hch) (by omega))
    · have hch' : (fullPass b).2 = false := Bool.of_not_eq_true hch
      rw [if_neg (by rw [hch']; exact Bool.false_ne_true), fullPass_nochange b hch']
      exact hch'

/-- A state on which a full pass reports no change is a fixed point of the
loop. -/
theorem thinLoop_of_nochange (fuel : Nat) (b : Bitmap) (h : (fullPass b).2 = false) :
    thinLoop (fuel + 1) b = b := by
  rw [thinLoop, if_neg (by rw [h]; exact Bool.false_ne_true)]
  exact fullPass_nochange b h

theorem thinLoop_width : ∀ (fuel : Nat) (b : Bitmap), (thinLoop fuel b).width = b.width
  | 0, _ => rfl
  | fuel + 1, b => by
    rw [thinLoop]
    by_cases hch : (fullPass b).2 = true
    · rw [if_pos hch, thinLoop_width fuel _, fullPass_width]
    · rw [if_neg hch, fullPass_width]

theorem thinLoop_height : ∀ (fuel : Nat) (b : Bitmap), (thinLoop fuel b).height = b.height
  | 0, _ => rfl
  | fuel + 1, b => by
    rw [thinLoop]
    by_cases hch : (fullPass b).2 = true
    · rw [if_pos hch, thinLoop_height fuel _, fullPass_height]
    · rw [if_neg hch, fullPass_height]

theorem thinLoop_mono : ∀ (fuel : Nat) (b : Bitmap) (j : Nat),
    bitGet (thinLoop fuel b).data j = true → bitGet b.data j = true
  | 0, _, _ => fun h => h
  | fuel + 1, b, j => by
    rw [thinLoop]
    by_cases hch : (fullPass b).2 = true
    · rw [if_pos hch]
      intro h
      exact fullPass_mono b j (thinLoop_mono fuel _ j h)
    · rw [if_neg hch]
      exact fullPass_mono b j

/-- The source `thin()` never touches a cell on the bitmap edge: a full pass
only writes interior cells. -/
theorem fullPass_edge (b : Bitmap) (x y : Nat) (hx : x < b.width)
    (hedge : x = 0 ∨ x = b.width - 1 ∨ y = 0 ∨ y = b.height - 1) :
    bitGet (fullPass b).1.data (y * b.width + x) = bitGet b.data (y * b.width + x) := by
  have step : ∀ (fp : Bool) (b' : Bitmap), b'.width = b.width → b'.height = b.height →
      bitGet (subPass fp b').1.data (y * b.width + x) = bitGet b'.data (y * b.width + x) := by
    intro fp b' hw hh
    rw [show (subPass fp b').1 = removeMarked b' (subPassMarks fp b') from rfl]
    rw [← hw]
    refine removeMarked_other _ b' x y (by omega) ?_
    intro c hc
    obtain ⟨h1, h2, h3, h4, _⟩ := subPassMarks_mem fp b' c hc
    refine ⟨by omega, ?_⟩
    rintro ⟨rfl, rfl⟩
    omega
  rw [show (fullPass b).1 = (subPass false (subPass false (subPass true b).1).1).1 from rfl]
  rw [step false _ (by rw [subPass_width, subPass_width]) (by rw [subPass_height, subPass_height])]
  rw [step false _ (by rw [subPass_width]) (by rw [subPass_height])]
  rw [step true b rfl rfl]

theorem thinLoop_edge : ∀ (fuel : Nat) (b : Bitmap) (x y : Nat), x < b.width →
    (x = 0 ∨ x = b.width - 1 ∨ y = 0 ∨ y = b.height - 1) →
    bitGet (thinLoop fuel b).data (y * b.width + x) = bitGet b.data (y * b.width + x)
  | 0, _, _, _, _, _ => rfl
  | fuel + 1, b, x, y, hx, hedge => by
    rw [thinLoop]
    by_cases hch : (fullPass b).2 = true
    · rw [if_pos hch]
      have hrec := thinLoop_edge fuel (fullPass b).1 x y
        (by rw [fullPass_width]; exact hx)
        (by rw [fullPass_width, fullPass_height]; exact hedge)
      rw [fullPass_width] at hrec
      rw [hrec]
      exact fullPass_edge b x y hx hedge
    · rw [if_neg hch]
      exact fullPass_edge b x y hx hedge

/-- The result of thinning is a fixed point of `zhangSuenThinning` itself. -/
theorem zhangSuenThinning_fixed (b : Bitmap) :
    zhangSuenThinning (zhangSuenThinning b) = zhangSuenThinning b := by
  have hst : (fullPass (zhangSuenThinning b)).2 = false := by
    rw [zhangSuenThinning, Bitmap.clone_eq]
    exact thinLoop_stable (popcount b + 1) b (by omega)
  rw [show zhangSuenThinning (zhangSuenThinning b)
    = thinLoop (popcount (zhangSuenThinning b) + 1) (zhangSuenThinning b).clone from rfl]
  rw [Bitmap.clone_eq]
  exact thinLoop_of_nochange _ _ hst

/-- C5: thinning is idempotent: for every bitmap `b`, `thin(thin(b))` has the
same width, height, and value at every cell as `thin(b)`. -/
theorem thin_idempotent (b : Bitmap) :
    (zhangSuenThinning (zhangSuenThinning b)).width = (zhangSuenThinning b).width ∧
    (zhangSuenThinning (zhangSuenThinning b)).height = (zhangSuenThinning b).height ∧
    ∀ x y : Nat,
      (zhangSuenThinning (zhangSuenThinning b)).get x y = (zhangSuenThinning b).get x y := by
  rw [zhangSuenThinning_fixed b]
  exact ⟨rfl, rfl, fun _ _ => rfl⟩

/-- C9: `thin()` only clears cells (a cell set in the result was set in the
input), and every cell on the bitmap edge keeps exactly its input value. -/
theorem thin_clears_and_preserves_edge (b : Bitmap) (x y : Nat)
    (hx : x < b.width) (hy : y < b.height) :
    ((zhangSuenThinning b).get x y = true → b.get x y = true) ∧
    ((x = 0 ∨ x = b.width - 1 ∨ y = 0 ∨ y = b.height - 1) →
      (zhangSuenThinning b).get x y = b.get x y) := by
  have hw : (zhangSuenThinning b).width = b.width := thinLoop_width _ _
  have hget : (zhangSuenThinning b).get x y
      = bitGet (thinLoop (popcount b + 1) b).data (y * b.width + x) := by
    show bitGet (zhangSuenThinning b).data (y * (zhangSuenThinning b).width + x) = _
    rw [hw]
    rfl
  constructor
  · intro h
    rw [hget] at h
    exact thinLoop_mono _ _ _ h
  · intro hedge
    rw [hget]
    exact thinLoop_edge (popcount b + 1) b x y hx hedge

theorem thin_clears_and_preserves_edge_witness :
    (0 < (Bitmap.fromUnit8array 3 3 [255, 1]).width ∧
     0 < (Bitmap.fromUnit8array 3 3 [255, 1]).height) ∧
    (((zhangSuenThinning (Bitmap.fromUnit8array 3 3 [255, 1])).get 0 0 = true →
        (Bitmap.fromUnit8array 3 3 [255, 1]).get 0 0 = true) ∧
     ((0 = 0 ∨ 0 = (Bitmap.fromUnit8array 3 3 [255, 1]).width - 1 ∨ 0 = 0 ∨
        0 = (Bitmap.fromUnit8array 3 3 [255, 1]).height - 1) →
       (zhangSuenThinning (Bitmap.fromUnit8array 3 3 [255, 1])).get 0 0
         = (Bitmap.fromUnit8array 3 3 [255, 1]).get 0 0)) :=
  ⟨⟨by decide, by decide⟩,
   thin_clears_and_preserves_edge (Bitmap.fromUnit8array 3 3 [255, 1]) 0 0
     (by decide) (by decide)⟩

/-! ## The claimed two-sub-pass iteration, for comparison (claim C4) -/

/-- Modelled from the spec: one outer iteration made of exactly two
alternating sub-passes ("iterative parallel thinning over two alternating
sub-passes"), to be compared with the source's three-sub-pass `fullPass`. -/
def specTwoSubPassIteration (b : Bitmap) : Bitmap × Bool :=
  let p0 := subPass true b
  let p1 := subPass false p0.1
  (p1.1, p0.2 || p1.2)

/-- Modelled from the spec: iterate the two-sub-pass iteration until a full
pass removes nothing (same fuel bound as `thinLoop`). -/
def specTwoSubPassLoop : Nat → Bitmap → Bitmap
  | 0, b => b
  | fuel + 1, b =>
    if (specTwoSubPassIteration b).2 then specTwoSubPassLoop fuel (specTwoSubPassIteration b).1
    else (specTwoSubPassIteration b).1

/-- Modelled from the spec: canonical two-sub-pass Zhang-Suen thinning. -/
def specTwoSubPassThinning (b : Bitmap) : Bitmap :=
  specTwoSubPassLoop (popcount b + 1) b.clone

/-- `Bitmap.fromBooleanMatrix(matrix)`: width from the first row, cells set
column-by-column; a missing `matrix[y][x]` is `undefined`, i.e. falsy. -/
def Bitmap.fromBooleanMatrix (matrix : List (List Bool)) : Bitmap :=
  (List.range (matrix.getD 0 []).length).foldl
    (fun acc x =>
      (List.range matrix.length).foldl
        (fun acc2 y => acc2.set x y ((matrix.getD y []).getD x false)) acc)
    (Bitmap.create (matrix.getD 0 []).length matrix.length)

/-- 7x7 bitmap on which the source's three-sub-pass loop and the claimed
two-sub-pass loop reach different fixed points. -/
def thinDivergenceInput : Bitmap :=
  Bitmap.fromBooleanMatrix
    [[false, false, false, false, false, false, false],
     [false, false, false, false, false, false, false],
     [true, true, true, false, true, false, false],
     [true, true, true, true, false, false, false],
     [true, true, true, false, false, false, false],
     [false, true, false, true, false, false, false],
     [false, false, false, false, false, false, false]]

/-- C4: the source's outer iteration consists of three sub-passes
(`for (let pass = 0; pass < 3; pass++)`), the first using the `pass === 0`
corner conditions and the other two repeating the alternate conditions; this
is observable: on `thinDivergenceInput` the source thinning and the claimed
two-alternating-sub-pass thinning reach different fixed points (cells (1,3)
and (1,4) end up swapped). -/
theorem thinning_three_sub_passes_observable :
    (zhangSuenThinning thinDivergenceInput).get 1 3 = false ∧
    (zhangSuenThinning thinDivergenceInput).get 1 4 = true ∧
    (specTwoSubPassThinning thinDivergenceInput).get 1 3 = true ∧
    (specTwoSubPassThinning thinDivergenceInput).get 1 4 = false := by decide

/-! ## Construction without validation (claim C6) -/

/-- C6 counterexample: `fromUnit8array` succeeds on a buffer whose length (0)
differs from `ceil(3 * 3 / 8) = 2`; no error path exists in the constructor. -/
theorem fromUnit8array_no_validation :
    Bitmap.fromUnit8array 3 3 [] = (⟨3, 3, []⟩ : Bitmap) ∧
    ([] : List Nat).length ≠ (3 * 3 + 7) / 8 :=
  ⟨rfl, by decide⟩

/-- C6 (amended): `fromUnit8array` performs no length validation: it succeeds
for every buffer, returning a bitmap with exactly the given fields, and a
cell whose bit index falls beyond the buffer reads back `false`. -/
theorem fromUnit8array_accepts_any_buffer (w h : Nat) (d : List Nat) (x y : Nat)
    (hx : x < w) (hy : y < h) (hbeyond : 8 * d.length ≤ y * w + x) :
    (Bitmap.fromUnit8array w h d).width = w ∧
    (Bitmap.fromUnit8array w h d).height = h ∧
    (Bitmap.fromUnit8array w h d).data = d ∧
    (Bitmap.fromUnit8array w h d).get x y = false := by
  refine ⟨rfl, rfl, rfl, ?_⟩
  show bitGet d (y * w + x) = false
  rw [bitGet_eq_testBit]
  have hlen : d.length ≤ (y * w + x) / 8 := by omega
  have hz : byteGet d ((y * w + x) / 8) = 0 := by
    rw [byteGet, List.getD_eq_getElem?_getD, List.getElem?_eq_none hlen]
    rfl
  rw [hz]
  simp

theorem fromUnit8array_accepts_any_buffer_witness :
    (0 < 3 ∧ 0 < 3 ∧ 8 * ([] : List Nat).length ≤ 0 * 3 + 0) ∧
    ((Bitmap.fromUnit8array 3 3 []).width = 3 ∧
     (Bitmap.fromUnit8array 3 3 []).height = 3 ∧
     (Bitmap.fromUnit8array 3 3 []).data = [] ∧
     (Bitmap.fromUnit8array 3 3 []).get 0 0 = false) :=
  ⟨⟨by decide, by decide, by decide⟩,
   fromUnit8array_accepts_any_buffer 3 3 [] 0 0 (by decide) (by decide) (by decide)⟩

/-! ## Unchecked indexed access (claim C10) -/

/-- JS ToInt32, the coercion applied to the operands of `>>` and `&`: wrap
modulo `2^32` into the signed 32-bit range. -/
def toInt32 (v : Int) : Int := (v + 2147483648) % 4294967296 - 2147483648

/-- `i >> 3`: ToInt32 then arithmetic shift right by 3, i.e. floor division
by 8 (Euclidean `/` on `Int` floors for a positive divisor). -/
def jsShr3 (i : Int) : Int := toInt32 i / 8

/-- `i & 7`: ToInt32 then mask with the low three bits, i.e. the non-negative
remainder mod 8 of the two's-complement value. -/
def jsAnd7 (i : Int) : Int := toInt32 i % 8

/-- `getByIndex(i)`: read bit `i & 7` of byte `i >> 3` with no bounds check.
Outside the array `data[byteIndex]` is `undefined` and
`((undefined >> bit) & 1) > 0` is `false`. -/
def Bitmap.getByIndex (b : Bitmap) (i : Int) : Bool :=
  if 0 ≤ jsShr3 i ∧ jsShr3 i < (b.data.length : Int) then
    (byteGet b.data (jsShr3 i).toNat) >>> (jsAnd7 i).toNat &&& 1 == 1
  else false

/-- `setByIndex(i, value)`: write bit `i & 7` of byte `i >> 3` with no bounds
check; a typed-array write outside the array is silently dropped. -/
def Bitmap.setByIndex (b : Bitmap) (i : Int) (v : Bool) : Bitmap :=
  if 0 ≤ jsShr3 i ∧ jsShr3 i < (b.data.length : Int) then
    ⟨b.width, b.height,
      b.data.set (jsShr3 i).toNat
        (if v then byteGet b.data (jsShr3 i).toNat ||| (1 <<< (jsAnd7 i).toNat)
         else byteGet b.data (jsShr3 i).toNat &&& (255 ^^^ (1 <<< (jsAnd7 i).toNat)))⟩
  else b

/-- C10 counterexample: the index `2^32` lies outside the one-byte buffer's
bit range `[0, 8)`, yet `getByIndex` returns `true` rather than `false` and
`setByIndex` is not a no-op: ToInt32 wraps `2^32` to `0`, aliasing cell 0. -/
theorem byIndex_wraparound :
    (Bitmap.fromUnit8array 8 1 [1]).getByIndex 4294967296 = true ∧
    ¬((4294967296 : Int) < 8 * ([1] : List Nat).length) ∧
    ((Bitmap.fromUnit8array 8 1 [0]).setByIndex 4294967296 true).get 0 0 = true ∧
    (Bitmap.fromUnit8array 8 1 [0]).get 0 0 = false := by decide

/-- C10 (amended): `getByIndex` and `setByIndex` never throw, and whenever the
ToInt32 image of the index falls outside the buffer's bit range — in
particular for every negative index and every too-large index below `2^31` —
`getByIndex` returns `false` and `setByIndex` leaves the bitmap unchanged.
Indices at `2^31` and beyond wrap modulo `2^32` and may alias in-range cells
(see `byIndex_wraparound`). -/
theorem byIndex_out_of_range (b : Bitmap) (i : Int) (v : Bool)
    (h : toInt32 i < 0 ∨ 8 * (b.data.length : Int) ≤ toInt32 i) :
    b.getByIndex i = false ∧ b.setByIndex i v = b := by
  have hguard : ¬(0 ≤ jsShr3 i ∧ jsShr3 i < (b.data.length : Int)) := by
    rw [jsShr3]
    rcases h with h | h
    · rintro ⟨h1, -⟩
      exact absurd h1 (Int.not_le.mpr (Int.ediv_neg' h (by norm_num)))
    · rintro ⟨-, h2⟩
      have hle : (b.data.length : Int) ≤ toInt32 i / 8 :=
        (Int.le_ediv_iff_mul_le (by norm_num)).mpr (by linarith)
      omega
  exact ⟨by rw [Bitmap.getByIndex, if_neg hguard], by rw [Bitmap.setByIndex, if_neg hguard]⟩

theorem byIndex_out_of_range_witness :
    (toInt32 (-5) < 0 ∨ 8 * (([1] : List Nat).length : Int) ≤ toInt32 (-5)) ∧
    ((Bitmap.fromUnit8array 8 1 [1]).getByIndex (-5) = false ∧
     (Bitmap.fromUnit8array 8 1 [1]).setByIndex (-5) true = Bitmap.fromUnit8array 8 1 [1]) :=
  ⟨by decide, byIndex_out_of_range (Bitmap.fromUnit8array 8 1 [1]) (-5) true (by decide)⟩

/-! ## Tree arena (`src/Tree.ts`) -/

/-- The `0xffffffff` sentinel standing in for "no relation". -/
def TREE_MAX : Nat := 4294967295

/-- Arena-based forest: parallel arrays of parent / first-child / next-sibling
links (`Uint32Array`s in the source). The source preallocates capacity and
fills the unused tail with the sentinel; since a slot is only read after the
node exists, the arrays are modelled at their live length (`size`), with
`getD` supplying the sentinel beyond. -/
structure Tree (T : Type) where
  values : List T
  firstChild : List Nat
  nextSibling : List Nat
  parent : List Nat
deriving DecidableEq

namespace Tree

variable {T : Type}

/-- `Tree.create()`: an empty forest. -/
def create : Tree T := ⟨[], [], [], []⟩

/-- `new(body)`: append a node whose links are all the sentinel; returns the
dense id `size`. -/
def new (t : Tree T) (body : T) : Tree T × Nat :=
  (⟨t.values ++ [body], t.firstChild ++ [TREE_MAX], t.nextSibling ++ [TREE_MAX],
    t.parent ++ [TREE_MAX]⟩, t.values.length)

/-- `get(id)` (production mode: unchecked read). -/
def get [Inhabited T] (t : Tree T) (id : Nat) : T := t.values.getD id default

/-- `getParent(id)`: sentinel reads as `null`. -/
def getParent (t : Tree T) (id : Nat) : Option Nat :=
  if t.parent.getD id TREE_MAX = TREE_MAX then none else some (t.parent.getD id TREE_MAX)

/-- `setParent(id, parentId)`. -/
def setParent (t : Tree T) (id : Nat) (parentId : Option Nat) : Tree T :=
  ⟨t.values, t.firstChild, t.nextSibling, t.parent.set id (parentId.getD TREE_MAX)⟩

/-- `getFirstChild(id)`. -/
def getFirstChild (t : Tree T) (id : Nat) : Option Nat :=
  if t.firstChild.getD id TREE_MAX = TREE_MAX then none
  else some (t.firstChild.getD id TREE_MAX)

/-- `setFirstChild(id, childId)`. -/
def setFirstChild (t : Tree T) (id : Nat) (childId : Option Nat) : Tree T :=
  ⟨t.values, t.firstChild.set id (childId.getD TREE_MAX), t.nextSibling, t.parent⟩

/-- `getNextSibling(id)`. -/
def getNextSibling (t : Tree T) (id : Nat) : Option Nat :=
  if t.nextSibling.getD id TREE_MAX = TREE_MAX then none
  else some (t.nextSibling.getD id TREE_MAX)

/-- `setNextSibling(id, siblingId)`. -/
def setNextSibling (t : Tree T) (id : Nat) (siblingId : Option Nat) : Tree T :=
  ⟨t.values, t.firstChild, t.nextSibling.set id (siblingId.getD TREE_MAX), t.parent⟩

/-- The sibling-chain tail walk of `addChild`, fuelled; the source walks an
acyclic chain, for which `size` fuel always suffices. -/
def lastSibling (t : Tree T) : Nat → Nat → Nat
  | 0, current => current
  | fuel + 1, current =>
    match t.getNextSibling current with
    | none => current
    | some nxt => lastSibling t fuel nxt

/-- `addChild(parentId, childId)`: set the child's parent; become first child
if the parent has none, else append at the sibling-chain tail. -/
def addChild (t : Tree T) (parentId childId : Nat) : Tree T :=
  let t1 := t.setParent childId (some parentId)
  match t1.getFirstChild parentId with
  | none => t1.setFirstChild parentId (some childId)
  | some fc => t1.setNextSibling (lastSibling t1 t1.values.length fc) (some childId)

/-- `getRoots()`: every id whose parent slot holds the sentinel, in id order. -/
def getRoots (t : Tree T) : List Nat :=
  (List.range t.values.length).filter fun i => t.parent.getD i TREE_MAX = TREE_MAX

/-- The `children(id)` generator materialised: follow the sibling chain from
the first child; `size` fuel covers every acyclic chain. -/
def childrenAux (t : Tree T) : Nat → Option Nat → List Nat
  | 0, _ => []
  | _ + 1, none => []
  | fuel + 1, some c => c :: childrenAux t fuel (t.getNextSibling c)

/-- `children(id)` as the finite sequence the generator yields. -/
def children (t : Tree T) (id : Nat) : List Nat :=
  childrenAux t t.values.length (t.getFirstChild id)

end Tree

theorem listGetD_set_ne (l : List Nat) (i j v d : Nat) (h : j ≠ i) :
    (l.set i v).getD j d = l.getD j d := by
  simp [List.getElem?_set_ne (Ne.symm h)]

theorem listGetD_set_self (l : List Nat) (i v d : Nat) (h : i < l.length) :
    (l.set i v).getD i d = v := by
  simp [List.getElem?_set_self h]

theorem nodup_length_le (l : List Nat) (N : Nat) (hnd : l.Nodup) (hlt : ∀ a ∈ l, a < N) :
    l.length ≤ N := by
  have hsub : l.toFinset ⊆ Finset.range N := by
    intro a ha
    rw [List.mem_toFinset] at ha
    exact Finset.mem_range.mpr (hlt a ha)
  have hcard := Finset.card_le_card hsub
  rwa [List.toFinset_card_of_nodup hnd, Finset.card_range] at hcard

namespace Tree

variable {T : Type}

/-- `l` is the nil-terminated sibling chain starting at link `o`: the finite
sequence the `children` generator walks. -/
inductive SiblingChain (t : Tree T) : Option Nat → List Nat → Prop
  | nil : SiblingChain t none []
  | cons (c : Nat) (l : List Nat) :
      SiblingChain t (t.getNextSibling c) l → SiblingChain t (some c) (c :: l)

theorem SiblingChain.congr_links {t t' : Tree T} (hns : t.nextSibling = t'.nextSibling) :
    ∀ {o : Option Nat} {l : List Nat}, SiblingChain t o l → SiblingChain t' o l := by
  intro o l h
  induction h with
  | nil => exact SiblingChain.nil
  | cons c l hrest ih =>
    refine SiblingChain.cons c l ?_
    have : t.getNextSibling c = t'.getNextSibling c := by
      rw [getNextSibling, getNextSibling, hns]
    rwa [← this]

/-- Enough fuel makes `childrenAux` produce exactly the chain. -/
theorem childrenAux_of_chain {t : Tree T} :
    ∀ {o : Option Nat} {l : List Nat}, SiblingChain t o l →
      ∀ fuel : Nat, l.length ≤ fuel → childrenAux t fuel o = l := by
  intro o l h
  induction h with
  | nil =>
    intro fuel _
    cases fuel with
    | zero => rfl
    | succ fuel => rfl
  | cons c l hrest ih =>
    intro fuel hfuel
    cases fuel with
    | zero => simp at hfuel
    | succ fuel =>
      rw [childrenAux, ih fuel (by simpa using hfuel)]

theorem chain_nil_inv {t : Tree T} {o : Option Nat} (h : SiblingChain t o []) : o = none := by
  cases h
  rfl

theorem chain_cons_inv {t : Tree T} {o : Option Nat} {d : Nat} {l : List Nat}
    (h : SiblingChain t o (d :: l)) :
    o = some d ∧ SiblingChain t (t.getNextSibling d) l := by
  cases h with
  | cons c l hrest => exact ⟨rfl, hrest⟩

theorem chain_some_inv {t : Tree T} {fc : Nat} {l : List Nat}
    (h : SiblingChain t (some fc) l) :
    ∃ ll, l = fc :: ll ∧ SiblingChain t (t.getNextSibling fc) ll := by
  cases h with
  | cons c l hrest => exact ⟨l, rfl, hrest⟩

/-- Every chain member is the target of the entry link or of some member's
next-sibling link. -/
theorem chain_mem_pointed {t : Tree T} :
    ∀ {o : Option Nat} {l : List Nat}, SiblingChain t o l → ∀ a ∈ l,
      o = some a ∨ ∃ b ∈ l, t.getNextSibling b = some a := by
  intro o l h
  induction h with
  | nil => intro a ha; cases ha
  | cons c l hrest ih =>
    intro a ha
    rcases List.mem_cons.mp ha with rfl | hmem
    · exact Or.inl rfl
    · rcases ih a hmem with hhead | ⟨b, hb, hnb⟩
      · exact Or.inr ⟨c, List.mem_cons_self c l, hhead⟩
      · exact Or.inr ⟨b, List.mem_cons_of_mem c hb, hnb⟩

/-- The tail walk of `addChild` reaches the last element of the chain hanging
off `c0`'s next-sibling link. -/
theorem lastSibling_eq (t : Tree T) :
    ∀ (l : List Nat) (c0 fuel : Nat), SiblingChain t (t.getNextSibling c0) l →
      l.length ≤ fuel → lastSibling t fuel c0 = l.getLastD c0
  | [], c0, fuel, h, _ => by
    have hnone : t.getNextSibling c0 = none := chain_nil_inv h
    cases fuel with
    | zero => rfl
    | succ fuel =>
      rw [lastSibling, hnone]
      rfl
  | d :: l, c0, fuel, h, hf => by
    obtain ⟨hns, hrest⟩ := chain_cons_inv h
    cases fuel with
    | zero => simp at hf
    | succ fuel =>
      have hstep : lastSibling t (fuel + 1) c0 = lastSibling t fuel d := by
        rw [lastSibling, hns]
      rw [hstep, lastSibling_eq t l d fuel hrest (by simpa using hf), List.getLastD_cons]

theorem lastSibling_congr {t t' : Tree T} (hns : t.nextSibling = t'.nextSibling) :
    ∀ (fuel cur : Nat), lastSibling t fuel cur = lastSibling t' fuel cur
  | 0, _ => rfl
  | fuel + 1, cur => by
    have hsame : t.getNextSibling cur = t'.getNextSibling cur := by
      rw [getNextSibling, getNextSibling, hns]
    rw [lastSibling, lastSibling, hsame]
    cases t'.getNextSibling cur with
    | none => rfl
    | some nxt => exact lastSibling_congr hns fuel nxt

/-- Appending a node `c` at the chain's last element via a single
next-sibling write extends the chain by `c`. -/
theorem chain_snoc {t t2 : Tree T} {c L : Nat}
    (hns : t2.nextSibling = t.nextSibling.set L c)
    (hcMAX : c < TREE_MAX)
    (hnextc : t.getNextSibling c = none)
    (hLlen : L < t.nextSibling.length)
    (hcL : c ≠ L) :
    ∀ (l : List Nat) (c0 : Nat), SiblingChain t (some c0) (c0 :: l) →
      (c0 :: l).getLast? = some L → L ∉ (c0 :: l).dropLast → c ∉ c0 :: l →
      SiblingChain t2 (some c0) ((c0 :: l) ++ [c])
  | [], c0, h, hlast, _, hcnot => by
    have hL0 : c0 = L := by
      simp only [List.getLast?_singleton, Option.some_inj] at hlast
      exact hlast
    subst hL0
    refine SiblingChain.cons _ _ ?_
    have h1 : t2.getNextSibling c0 = some c := by
      rw [getNextSibling, hns, listGetD_set_self _ _ _ _ hLlen]
      rw [if_neg (by omega)]
    rw [h1]
    refine SiblingChain.cons _ _ ?_
    have h2 : t2.getNextSibling c = none := by
      rw [getNextSibling, hns, listGetD_set_ne _ _ _ _ _ hcL]
      rw [getNextSibling] at hnextc
      by_cases hmax : t.nextSibling.getD c TREE_MAX = TREE_MAX
      · rw [if_pos hmax]
      · rw [if_neg hmax] at hnextc
        cases hnextc
    rw [h2]
    exact SiblingChain.nil
  | d :: l, c0, h, hlast, hdrop, hcnot => by
    obtain ⟨-, hrest⟩ := chain_cons_inv h
    obtain ⟨hnsd, -⟩ := chain_cons_inv hrest
    have hc0L : c0 ≠ L := by
      intro heq
      refine hdrop ?_
      rw [List.dropLast_cons₂]
      exact heq ▸ List.mem_cons_self c0 _
    refine SiblingChain.cons _ _ ?_
    have h1 : t2.getNextSibling c0 = some d := by
      rw [getNextSibling, hns, listGetD_set_ne _ _ _ _ _ hc0L]
      rw [getNextSibling] at hnsd
      by_cases hmax : t.nextSibling.getD c0 TREE_MAX = TREE_MAX
      · rw [if_pos hmax] at hnsd
        cases hnsd
      · rw [if_neg hmax] at hnsd ⊢
        exact hnsd
    rw [h1]
    have hrest2 : SiblingChain t (some d) (d :: l) := by
      rw [← hnsd]
      exact hrest
    have hlast2 : (d :: l).getLast? = some L := by
      have h2 := hlast
      rwa [List.getLast?_cons_cons] at h2
    have hdrop2 : L ∉ (d :: l).dropLast := by
      intro hmem
      refine hdrop ?_
      rw [List.dropLast_cons₂]
      exact List.mem_cons_of_mem _ hmem
    exact chain_snoc hns hcMAX hnextc hLlen hcL l d hrest2 hlast2 hdrop2
      (fun hmem => hcnot (List.mem_cons_of_mem _ hmem))

theorem nodup_getLast?_not_mem_dropLast (l : List Nat) (L : Nat) (hnd : l.Nodup)
    (hl : l.getLast? = some L) : L ∉ l.dropLast := by
  intro hmem
  have hne : l ≠ [] := by
    intro h
    rw [h] at hl
    cases hl
  have hLeq : l.getLast hne = L := by
    have hgl := List.getLast?_eq_getLast l hne
    rw [hgl] at hl
    exact Option.some_inj.mp hl
  have hsplit : l.dropLast ++ [l.getLast hne] = l := List.dropLast_append_getLast hne
  rw [← hsplit] at hnd
  have hdisj := List.disjoint_of_nodup_append hnd
  exact hdisj hmem (by rw [hLeq]; exact List.mem_singleton_self _)

theorem childrenAux_none (t : Tree T) (fuel : Nat) : childrenAux t fuel none = [] := by
  cases fuel with
  | zero => rfl
  | succ fuel => rfl

/-- C8 (amended): for nodes `p`, `c` of a well-formed arena where `c` is not
linked as any node's child and — the amendment the counterexample forces —
`c`'s own next-sibling link is also unset, `addChild(p, c)` sets `c`'s parent
to `p` and appends `c` as the last element of `p`'s children sequence,
keeping the previously existing children in order. -/
theorem addChild_appends (t : Tree T) (p c : Nat) (l : List Nat)
    (hwfF : t.firstChild.length = t.values.length)
    (hwfN : t.nextSibling.length = t.values.length)
    (hwfP : t.parent.length = t.values.length)
    (hsize : t.values.length ≤ TREE_MAX)
    (hp : p < t.values.length) (hc : c < t.values.length)
    (hchain : SiblingChain t (t.getFirstChild p) l)
    (hnd : l.Nodup) (hmem : ∀ a ∈ l, a < t.values.length)
    (hunlinked : ∀ n < t.values.length,
      t.getFirstChild n ≠ some c ∧ t.getNextSibling n ≠ some c)
    (hownsib : t.getNextSibling c = none) :
    (t.addChild p c).getParent c = some p ∧
    (t.addChild p c).children p = t.children p ++ [c] := by
  have hcnotin : c ∉ l := by
    intro hcl
    rcases chain_mem_pointed hchain c hcl with hhead | ⟨b, hb, hnb⟩
    · exact (hunlinked p hp).1 hhead
    · exact (hunlinked b (hmem b hb)).2 hnb
  have hllen : l.length ≤ t.values.length := nodup_length_le l _ hnd hmem
  have hparent : ∀ t3 : Tree T, t3.parent = t.parent.set c p → t3.getParent c = some p := by
    intro t3 h3
    rw [getParent, h3, listGetD_set_self _ _ _ _ (by omega)]
    rw [if_neg (by omega)]
  cases hfc : t.getFirstChild p with
  | none =>
    have hlnil : l = [] := by
      rw [hfc] at hchain
      cases hchain
      rfl
    subst hlnil
    have haddc : t.addChild p c
        = (t.setParent c (some p)).setFirstChild p (some c) := by
      have hmatch : (t.setParent c (some p)).getFirstChild p = none := hfc
      simp only [addChild]
      rw [hmatch]
    rw [haddc]
    constructor
    · exact hparent _ rfl
    · have hfc2 : ((t.setParent c (some p)).setFirstChild p (some c)).getFirstChild p
          = some c := by
        rw [getFirstChild]
        have hset : ((t.setParent c (some p)).setFirstChild p (some c)).firstChild
            = t.firstChild.set p c := rfl
        rw [hset, listGetD_set_self _ _ _ _ (by omega), if_neg (by omega)]
      have hchain2 : SiblingChain ((t.setParent c (some p)).setFirstChild p (some c))
          (some c) [c] := by
        refine SiblingChain.cons _ _ ?_
        have hns2 : ((t.setParent c (some p)).setFirstChild p (some c)).getNextSibling c
            = none := hownsib
        rw [hns2]
        exact SiblingChain.nil
      rw [children, children, hfc, hfc2, childrenAux_none]
      refine childrenAux_of_chain hchain2
        ((t.setParent c (some p)).setFirstChild p (some c)).values.length ?_
      show 1 ≤ t.values.length
      omega
  | some fc =>
    rw [hfc] at hchain
    obtain ⟨ll, rfl, hrest⟩ := chain_some_inv hchain
    have hlast : (fc :: ll).getLast? = some (ll.getLastD fc) := by
      rw [List.getLastD_eq_getLast?]
      exact List.getLast?_cons
    have hLmem : ll.getLastD fc ∈ fc :: ll := List.getLastD_mem_cons ll fc
    have hmatch : (t.setParent c (some p)).getFirstChild p = some fc := hfc
    have hwalk : lastSibling (t.setParent c (some p))
        (t.setParent c (some p)).values.length fc = ll.getLastD fc := by
      have hlen3 : ll.length ≤ t.values.length := by
        simp only [List.length_cons] at hllen
        omega
      have h7 : lastSibling (t.setParent c (some p)) t.values.length fc
          = lastSibling t t.values.length fc :=
        @lastSibling_congr T (t.setParent c (some p)) t rfl t.values.length fc
      calc lastSibling (t.setParent c (some p))
            (t.setParent c (some p)).values.length fc
          = lastSibling t t.values.length fc := h7
        _ = ll.getLastD fc := lastSibling_eq t ll fc t.values.length hrest hlen3
    have haddc : t.addChild p c
        = (t.setParent c (some p)).setNextSibling (ll.getLastD fc) (some c) := by
      simp only [addChild, hmatch]
      rw [hwalk]
    rw [haddc]
    constructor
    · exact hparent _ rfl
    · have hchain2 : SiblingChain
          ((t.setParent c (some p)).setNextSibling (ll.getLastD fc) (some c))
          (some fc) ((fc :: ll) ++ [c]) := by
        refine chain_snoc rfl ?_ hownsib ?_ ?_ ll fc
          (SiblingChain.cons _ _ hrest) hlast
          (nodup_getLast?_not_mem_dropLast _ _ hnd hlast) hcnotin
        · have := hmem _ hLmem
          omega
        · have h6 := hmem _ hLmem
          omega
        · intro heq
          exact hcnotin (heq ▸ hLmem)
      have hfc2 : ((t.setParent c (some p)).setNextSibling (ll.getLastD fc)
          (some c)).getFirstChild p = some fc := hfc
      rw [children, children, hfc, hfc2]
      have hlen2 : ((fc :: ll) ++ [c]).length ≤ t.values.length := by
        refine nodup_length_le _ _ ?_ ?_
        · refine List.Nodup.append hnd (List.nodup_singleton c) ?_
          intro a ha ha2
          rw [List.mem_singleton] at ha2
          subst ha2
          exact hcnotin ha
        · intro a ha
          rcases List.mem_append.mp ha with ha | ha
          · exact hmem a ha
          · rw [List.mem_singleton] at ha
            subst ha
            exact hc
      have hlen2' : (fc :: ll ++ [c]).length
          ≤ ((t.setParent c (some p)).setNextSibling (ll.getLastD fc)
              (some c)).values.length := hlen2
      rw [childrenAux_of_chain hchain2 _ hlen2',
        childrenAux_of_chain (SiblingChain.cons _ _ hrest) _ hllen]

end Tree

/-- Three-node forest where node 1 has a dangling next-sibling link to node 2
(set through the public `setNextSibling`) while not being linked as any
node's child. -/
def c8Tree : Tree Unit :=
  ((((Tree.create : Tree Unit).new ()).1.new ()).1.new ()).1.setNextSibling 1 (some 2)

/-- C8 counterexample: in `c8Tree` node 1 is in no node's children sequence,
yet after `addChild(0, 1)` the children of node 0 are `[1, 2]` — node 1
dragged its dangling next-sibling link in — and not the previous children
with 1 appended, which would be `[1]`. -/
theorem addChild_not_append :
    (∀ n < c8Tree.values.length, 1 ∉ c8Tree.children n) ∧
    (c8Tree.addChild 0 1).children 0 = [1, 2] ∧
    c8Tree.children 0 ++ [1] = [1] ∧
    (c8Tree.addChild 0 1).getParent 1 = some 0 := by decide

/-- Two fresh nodes with no links at all. -/
def c8SimpleTree : Tree Unit := (((Tree.create : Tree Unit).new ()).1.new ()).1

theorem addChild_appends_witness :
    (c8SimpleTree.firstChild.length = c8SimpleTree.values.length ∧
     c8SimpleTree.nextSibling.length = c8SimpleTree.values.length ∧
     c8SimpleTree.parent.length = c8SimpleTree.values.length ∧
     c8SimpleTree.values.length ≤ TREE_MAX ∧
     0 < c8SimpleTree.values.length ∧ 1 < c8SimpleTree.values.length ∧
     List.Nodup ([] : List Nat) ∧
     (∀ a ∈ ([] : List Nat), a < c8SimpleTree.values.length) ∧
     (∀ n < c8SimpleTree.values.length,
        c8SimpleTree.getFirstChild n ≠ some 1 ∧ c8SimpleTree.getNextSibling n ≠ some 1) ∧
     c8SimpleTree.getNextSibling 1 = none) ∧
    ((c8SimpleTree.addChild 0 1).getParent 1 = some 0 ∧
     (c8SimpleTree.addChild 0 1).children 0 = c8SimpleTree.children 0 ++ [1]) :=
  ⟨⟨by decide, by decide, by decide, by decide, by decide, by decide, by decide,
    by decide, by decide, by decide⟩,
   Tree.addChild_appends c8SimpleTree 0 1 [] (by decide) (by decide) (by decide)
     (by decide) (by decide) (by decide) Tree.SiblingChain.nil (by decide)
     (by decide) (by decide) (by decide)⟩

/-! ## ContourExtractor (`src/ContourExtractor.ts`)

Suzuki-Abe border following over a padded `Int8Array` working grid.  The
`Int8Array` is modelled as a `List Nat` of raw bytes read through a signed
reinterpretation; an out-of-range read is JS `undefined`, kept as `none`
because `undefined !== 0` is `true` in `checkValue` while `undefined & m`
is `0` in the mask reads. -/

/-- Signed reinterpretation of a stored byte (`Int8Array` element read). -/
def int8OfByte (v : Nat) : Int :=
  if v % 256 < 128 then (v % 256 : Int) else (v % 256 : Int) - 256

/-- `this.image[i]` for an arbitrary (possibly out-of-range) index. -/
def imgRead (img : List Nat) (i : Int) : Option Int :=
  if 0 ≤ i ∧ i < (img.length : Int) then some (int8OfByte (img.getD i.toNat 0)) else none

/-- `this.image[i] = v`: a typed-array store outside the array is dropped. -/
def imgWrite (img : List Nat) (i : Int) (v : Nat) : List Nat :=
  if 0 ≤ i ∧ i < (img.length : Int) then img.set i.toNat v else img

/-- JS `a & m` where `a` may be `undefined` (then `0`): two's-complement mask
of the 32-bit image of the value. -/
def jsAndOpt (a : Option Int) (m : Nat) : Int :=
  match a with
  | none => 0
  | some v => ((v.emod 4294967296).toNat &&& m : Nat)

/-- JS `a < 1` where `a` may be `undefined` (a NaN comparison is `false`). -/
def jsLtOne (a : Option Int) : Bool :=
  match a with
  | none => false
  | some v => v < 1

/-- Direction vectors for 8-connectivity (clockwise starting from right). -/
def DX : List Int := [1, 1, 0, -1, -1, -1, 0, 1]

/-- Direction vectors for 8-connectivity, y components. -/
def DY : List Int := [0, 1, 1, 1, 0, -1, -1, -1]

/-- `getIndexDelta(dir)`: `DX[dir % 8] + DY[dir % 8] * width`. -/
def getIndexDelta (w : Nat) (dir : Nat) : Int :=
  DX.getD (dir % 8) 0 + DY.getD (dir % 8) 0 * (w : Int)

/-- `checkValue(i)`: `this.image[i] !== 0` (true for `undefined`). -/
def checkValue (img : List Nat) (i : Int) : Bool := imgRead img i ≠ some 0

/-- `isRight(i)`: `(this.image[i] & MASK8_RIGHT) !== 0`. -/
def isRight (img : List Nat) (i : Int) : Bool := jsAndOpt (imgRead img i) 128 ≠ 0

/-- `isValue(i)`: `this.image[i] === MASK8_BLACK`. -/
def isValue (img : List Nat) (i : Int) : Bool := imgRead img i = some 1

/-- `ContourApproximation` option. -/
inductive ContourApproximation
  | None
  | Simple
deriving DecidableEq

/-- Bounding rectangle `[x, y, w, h]` (fields `rect[0] .. rect[3]`). -/
structure Rect where
  x0 : Int
  y0 : Int
  x1 : Int
  y1 : Int
deriving DecidableEq, Inhabited

/-- A finished contour record (the `Contour` interface; the `_`-prefixed
source names lose the prefix). -/
structure Contour where
  points : List (Int × Int)
  isHole : Bool
  origin : Nat × Nat
  boundingBox : Rect
  ctableNext : Option Nat
deriving DecidableEq, Inhabited

/-- The extractor's instance state: padded working grid plus bookkeeping. -/
structure ContourExtractor where
  image : List Nat
  width : Nat
  height : Nat
  approx : ContourApproximation
  tree : Tree Contour
  ctable : List (Option Nat)
  lnbd : Nat × Nat
  nbd : Nat

namespace ContourExtractor

/-- `ContourExtractor.fromBitmap(bitmap, opts)`: a `(W+2) x (H+2)` grid with
an empty border ring; cell `(x+1, y+1)` holds `1` iff bitmap bit `(x, y)` is
set (the source fills it by walking `bitmap.forEach` in row-major bit order,
which enumerates exactly `bitGet` at indices `y * W + x`). -/
def fromBitmap (b : Bitmap) (approx : ContourApproximation) : ContourExtractor :=
  let width := b.width + 2
  let height := b.height + 2
  let image := (List.range (width * height)).map fun k =>
    if 1 ≤ k % width ∧ k % width ≤ b.width ∧ 1 ≤ k / width ∧ k / width ≤ b.height ∧
        bitGet b.data ((k / width - 1) * b.width + (k % width - 1)) then 1 else 0
  ⟨image, width, height, approx, (Tree.create : Tree Contour),
    List.replicate 127 none, (0, 1), 2⟩

/-- `coordsToIndex(x, y)`. -/
def coordsToIndex (w : Nat) (p : Nat × Nat) : Int := (p.1 + w * p.2 : Nat)

/-- The do-while search for the initial trace direction:
`do { s = (s-1) & 7; i1 = i0 + delta(s) } while (!checkValue(i1) && s !== sEnd)`. -/
def initDirAux (img : List Nat) (w : Nat) (i0 : Int) (sEnd : Nat) : Nat → Nat → Nat × Int
  | s, 0 => (s, i0)
  | s, fuel + 1 =>
    let s1 := (s + 7) % 8
    let i1 := i0 + getIndexDelta w s1
    if !checkValue img i1 && s1 != sEnd then initDirAux img w i0 sEnd s1 fuel
    else (s1, i1)

/-- Eight steps of fuel always complete the do-while (the direction cycles
back to `sEnd`). -/
def initDir (img : List Nat) (w : Nat) (i0 : Int) (sEnd : Nat) : Nat × Int :=
  initDirAux img w i0 sEnd sEnd 8

/-- The inner `while (s < 15) { ++s; i4 = i3 + delta(s); if (checkValue(i4))
break }` loop; always entered with `s ≤ 7`, so 15 fuel completes it. -/
def findNextDir (img : List Nat) (w : Nat) (i3 : Int) : Nat → Nat → Nat × Int
  | s, 0 => (s, i3)
  | s, fuel + 1 =>
    let s1 := s + 1
    let i4 := i3 + getIndexDelta w s1
    if checkValue img i4 then (s1, i4)
    else if s1 < 15 then findNextDir img w i3 s1 fuel
    else (s1, i4)

/-- The two `if`/`else if` chains updating the running bounding box. -/
def updateRect (r : Rect) (p : Int × Int) : Rect :=
  let r1 := if p.1 < r.x0 then ⟨p.1, r.y0, r.x1, r.y1⟩
    else if p.1 > r.x1 then ⟨r.x0, r.y0, p.1, r.y1⟩ else r
  if p.2 < r1.y0 then ⟨r1.x0, p.2, r1.x1, r1.y1⟩
  else if p.2 > r1.y1 then ⟨r1.x0, r1.y0, r1.x1, p.2⟩ else r1

/-- `rect[2] -= rect[0] - 1; rect[3] -= rect[1] - 1` at the end of
`makeContourTrace`. -/
def finishRect (r : Rect) : Rect := ⟨r.x0, r.y0, r.x1 - (r.x0 - 1), r.y1 - (r.y0 - 1)⟩

/-- Accumulated state of the border-following loop of `makeContourTrace`. -/
structure TraceResult where
  image : List Nat
  rect : Rect
  points : List (Int × Int)

/-- The `while (true)` border-following loop of `makeContourTrace`.  Mutated
state: image (flag writes), current `point`, running `rect`, the emitted
`points`, `prevS`, `i3` and `s`.  The loop terminates when the trace returns
to the start configuration (`i4 === i0 && i3 === i1`); fuel merely bounds
the (terminating) iteration. -/
def traceLoop (w nbd : Nat) (approx : ContourApproximation) (i0 i1 : Int) :
    Nat → List Nat → Int × Int → Rect → List (Int × Int) → Nat → Int → Nat → TraceResult
  | 0, img, _, rect, points, _, _, _ => ⟨img, rect, points⟩
  | fuel + 1, img, point, rect, points, prevS, i3, s =>
    let sEndLoop := s
    let next := findNextDir img w i3 s 15
    let s2 := next.1 % 8
    let i4 := next.2
    let points' :=
      if approx = ContourApproximation.None then points ++ [point]
      else if approx = ContourApproximation.Simple ∧ s2 ≠ prevS then points ++ [point]
      else points
    let img' :=
      if (if s2 = 0 then 4294967295 else s2 - 1) < sEndLoop then imgWrite img i3 (nbd ||| 128)
      else if isValue img i3 then imgWrite img i3 nbd
      else img
    let rect' := if s2 ≠ prevS then updateRect rect point else rect
    let point' := (point.1 + DX.getD s2 0, point.2 + DY.getD s2 0)
    if i4 = i0 ∧ i3 = i1 then ⟨img', rect', points'⟩
    else traceLoop w nbd approx i0 i1 fuel img' point' rect' points' s2 i4 ((s2 + 4) % 8)

/-- `makeContourTrace(start, isHole, point, rect, points)`: find the initial
direction; an isolated pixel (`s === sEnd`) only gets its right flag and a
single point, otherwise the border is followed by `traceLoop`. -/
def makeContourTrace (img : List Nat) (w fuel nbd : Nat) (approx : ContourApproximation)
    (start : Nat × Nat) (isHole : Bool) (point0 : Int × Int) (rect0 : Rect) : TraceResult :=
  let i0 := coordsToIndex w start
  let sEnd := if isHole then 0 else 4
  let start' := initDir img w i0 sEnd
  if start'.1 = sEnd then
    ⟨imgWrite img i0 (nbd ||| 128), finishRect rect0, [point0]⟩
  else
    let res := traceLoop w nbd approx i0 start'.2 fuel img point0 rect0 []
      (start'.1 ^^^ 4) i0 start'.1
    ⟨res.image, finishRect res.rect, res.points⟩

/-- `makeContour(isHole, start)`: bump `nbd` (wrapping below the flag bits),
trace the border, translate the bounding box back, register the node in the
tree and in `ctable[lval]`. -/
def makeContour (st : ContourExtractor) (isHole : Bool) (start : Nat × Nat) :
    ContourExtractor × Nat :=
  let nbd1 := (st.nbd + 1) % 127
  let nbd2 := if nbd1 = 0 then 3 else nbd1
  let point : Int × Int := ((start.1 : Int) + (-1), (start.2 : Int) + (-1))
  let rect0 : Rect := ⟨point.1, point.2, point.1, point.2⟩
  let res := makeContourTrace st.image st.width (st.width * st.height * 8) nbd2 st.approx
    start isHole point rect0
  let rect2 : Rect := ⟨res.rect.x0 - (-1), res.rect.y0 - (-1), res.rect.x1, res.rect.y1⟩
  let built := st.tree.new ⟨res.points, isHole, start, rect2, st.ctable.getD nbd2 none⟩
  (⟨res.image, st.width, st.height, st.approx, built.1,
    st.ctable.set nbd2 (some built.2), st.lnbd, nbd2⟩, built.2)

/-- The `while (true) { t = (t-1) & 7; ... }` "is this the last contour"
check inside `hitsContourTrace`; 16 fuel completes the cycle to `t = 0`. -/
def lastContourCheck (img : List Nat) (w : Nat) (i3 : Int) : Nat → Nat → Bool
  | _, 0 => false
  | t, fuel + 1 =>
    let t1 := (t + 7) % 8
    let i5 := i3 + getIndexDelta w t1
    if checkValue img i5 then false
    else if t1 = 0 then true
    else lastContourCheck img w i3 t1 fuel

/-- The outer follow-the-border loop of `hitsContourTrace`. -/
def hitsLoop (img : List Nat) (w : Nat) (stopPtr i0 i1 : Int) : Nat → Int → Nat → Bool
  | 0, _, _ => false
  | fuel + 1, i3, s =>
    let next := findNextDir img w i3 s 15
    if i3 = stopPtr ∧ ¬isRight img i3 then true
    else if i3 = stopPtr ∧ lastContourCheck img w i3 next.1 16 then true
    else if next.2 = i0 ∧ i3 = i1 then false
    else hitsLoop img w stopPtr i0 i1 fuel next.2 ((next.1 + 4) % 8)

/-- `hitsContourTrace(start, end, isHole)`: replay the border trace from
`start`; containment holds when the trace passes `end` appropriately. -/
def hitsContourTrace (st : ContourExtractor) (start : Nat × Nat) (endp : Nat × Nat)
    (isHole : Bool) : Bool :=
  let stopPtr := coordsToIndex st.width endp
  let i0 := coordsToIndex st.width start
  let sEnd := if isHole then 0 else 4
  let start' := initDir st.image st.width i0 sEnd
  if start'.1 ≠ sEnd then
    hitsLoop st.image st.width stopPtr i0 start'.2 (st.width * st.height * 8) i0 start'.1
  else i0 = stopPtr

/-- The `while (cur !== null)` walk over the `ctable` chain in
`findFirstBoundingContour`; chain entries are strictly older nodes, so
`size + 1` fuel always completes it. -/
def findBoundingAux (st : ContourExtractor) (y : Nat) : Option Nat → Option Nat → Nat → Option Nat
  | _, res, 0 => res
  | none, res, _ + 1 => res
  | some cur, res, fuel + 1 =>
    let el := st.tree.get cur
    if (st.lnbd.1 : Int) - el.boundingBox.x0 < el.boundingBox.x1 ∧
        (st.lnbd.2 : Int) - el.boundingBox.y0 < el.boundingBox.y1 then
      match res with
      | some r =>
        if hitsContourTrace st (st.tree.get r).origin (st.lnbd.1, y) (st.tree.get r).isHole
        then res
        else findBoundingAux st y el.ctableNext (some cur) fuel
      | none => findBoundingAux st y el.ctableNext (some cur) fuel
    else findBoundingAux st y el.ctableNext res fuel

/-- `findFirstBoundingContour(y, lval)`. -/
def findFirstBoundingContour (st : ContourExtractor) (y : Nat) (lval : Nat) : Option Nat :=
  findBoundingAux st y (st.ctable.getD lval none) none (st.tree.values.length + 1)

/-- The inner skip-identical-values loop
`for (; x < width - 1 && (current = image[i]) === prev; x++, i++) {}`.
`cur` carries the last value assigned to `current` (`none` = still
`undefined`); on a bound exit the stale value is kept, as in JS. -/
def skipPhase (st : ContourExtractor) (prev : Option Int) :
    Nat → Nat → Option Int → Nat → Nat × Nat × Option Int
  | x, i, cur, 0 => (x, i, cur)
  | x, i, cur, fuel + 1 =>
    if x < st.width - 1 then
      let c := imgRead st.image i
      if c = prev then skipPhase st prev (x + 1) (i + 1) c fuel
      else (x, i, c)
    else (x, i, cur)

/-- One row of the main scan (`for (let x = 1; x < width - 1; x++, i++)`),
with the skip loop, the two border-start cases and the skip branch.  The
source's same-polarity fix-up block before the `addChild` is omitted: its
assert is compiled out in production and its assignment is `parent = parent`,
a no-op. -/
def rowLoop (y : Nat) : Nat → ContourExtractor → Nat → Nat → Option Int → ContourExtractor
  | 0, st, _, _, _ => st
  | fuel + 1, st, x, i, prev =>
    if x < st.width - 1 then
      let skip := skipPhase st prev x i none st.width
      let x' := skip.1
      let i' := skip.2.1
      let current := skip.2.2
      if x' ≥ st.width then rowLoop y fuel st (x' + 1) (i' + 1) prev
      else if ¬(prev = some 0 ∧ current = some 1) ∧
          (¬(current = some 0) ∨ jsLtOne prev) then
        -- skip branch: `prev = current; if (prev & MASK8_FLAGS) lnbd[0] = x`
        let st1 := if jsAndOpt current 254 ≠ 0 then
          (⟨st.image, st.width, st.height, st.approx, st.tree, st.ctable,
            (x', st.lnbd.2), st.nbd⟩ : ContourExtractor) else st
        rowLoop y fuel st1 (x' + 1) (i' + 1) current
      else
        -- border start; hole iff not the background-to-foreground case
        let isHole := ¬(prev = some 0 ∧ current = some 1)
        let st1 := if isHole ∧ jsAndOpt prev 254 ≠ 0 then
          (⟨st.image, st.width, st.height, st.approx, st.tree, st.ctable,
            (x' - 1, st.lnbd.2), st.nbd⟩ : ContourExtractor) else st
        let lval := (jsAndOpt (imgRead st1.image (coordsToIndex st1.width st1.lnbd)) 127).toNat
        let parent := findFirstBoundingContour st1 y lval
        let start := (x' - (if isHole then 1 else 0), y)
        let st2 : ContourExtractor := ⟨st1.image, st1.width, st1.height, st1.approx, st1.tree,
          st1.ctable, (start.1, st1.lnbd.2), st1.nbd⟩
        let made := makeContour st2 isHole start
        let st3 := match parent with
          | some pid =>
            (⟨made.1.image, made.1.width, made.1.height, made.1.approx,
              made.1.tree.addChild pid made.2, made.1.ctable, made.1.lnbd,
              made.1.nbd⟩ : ContourExtractor)
          | none => made.1
        rowLoop y fuel st3 (x' + 1) (i' + 1) (imgRead st3.image i')
    else st

/-- The row iteration of `extractContours`: per row reset `prev = 0`,
`lnbd = [0, y]`, `i = y * width + 1`, then scan the columns. -/
def scanRows : Nat → ContourExtractor → Nat → ContourExtractor
  | 0, st, _ => st
  | fuel + 1, st, y =>
    if y < st.height - 1 then
      let st1 : ContourExtractor := ⟨st.image, st.width, st.height, st.approx, st.tree,
        st.ctable, (0, y), st.nbd⟩
      scanRows fuel (rowLoop y st1.width st1 1 (y * st1.width + 1) (some 0)) (y + 1)
    else st

/-- `extractContours()`: run the scan, return the contour tree. -/
def extractContours (st : ContourExtractor) : Tree Contour :=
  (scanRows st.height st 1).tree

end ContourExtractor

/-! ## Universal behaviour of extraction: empty and single-pixel bitmaps (C3) -/

namespace ContourExtractor

/-- Replace only the `lnbd` cursor (the shape every scan-local state update
takes on rows that start no border). -/
def withLnbd (st : ContourExtractor) (l : Nat × Nat) : ContourExtractor :=
  ⟨st.image, st.width, st.height, st.approx, st.tree, st.ctable, l, st.nbd⟩

theorem fromBitmap_image_length (b : Bitmap) (approx : ContourApproximation) :
    (fromBitmap b approx).image.length = (b.width + 2) * (b.height + 2) := by
  simp [fromBitmap]

/-- The raw padded-grid cell `(px, py)` as the `fromBitmap` fill produced it. -/
theorem fromBitmap_image_getD (b : Bitmap) (approx : ContourApproximation)
    (px py : Nat) (hpx : px < b.width + 2) (hpy : py < b.height + 2) :
    (fromBitmap b approx).image.getD (py * (b.width + 2) + px) 0
      = if 1 ≤ px ∧ px ≤ b.width ∧ 1 ≤ py ∧ py ≤ b.height ∧
          bitGet b.data ((py - 1) * b.width + (px - 1)) then 1 else 0 := by
  have hidx : py * (b.width + 2) + px < (b.width + 2) * (b.height + 2) :=
    index_lt_size _ _ _ _ hpx hpy
  have hmod : (py * (b.width + 2) + px) % (b.width + 2) = px := by
    rw [Nat.add_comm, Nat.add_mul_mod_self_right, Nat.mod_eq_of_lt hpx]
  have hdiv : (py * (b.width + 2) + px) / (b.width + 2) = py := by
    rw [Nat.add_comm, Nat.add_mul_div_right _ _ (by omega), Nat.div_eq_of_lt hpx]
    omega
  have hstep : (fromBitmap b approx).image.getD (py * (b.width + 2) + px) 0
      = if 1 ≤ (py * (b.width + 2) + px) % (b.width + 2) ∧
            (py * (b.width + 2) + px) % (b.width + 2) ≤ b.width ∧
            1 ≤ (py * (b.width + 2) + px) / (b.width + 2) ∧
            (py * (b.width + 2) + px) / (b.width + 2) ≤ b.height ∧
            bitGet b.data (((py * (b.width + 2) + px) / (b.width + 2) - 1) * b.width +
              ((py * (b.width + 2) + px) % (b.width + 2) - 1)) then 1 else 0 := by
    show ((List.range ((b.width + 2) * (b.height + 2))).map _).getD _ 0 = _
    rw [List.getD_eq_getElem?_getD, List.getElem?_map, List.getElem?_range hidx]
    rfl
  rw [hstep, hmod, hdiv]

/-- An in-range image read through `imgRead` is the raw cell, reinterpreted. -/
theorem fromBitmap_imgRead (b : Bitmap) (approx : ContourApproximation)
    (px py : Nat) (hpx : px < b.width + 2) (hpy : py < b.height + 2) :
    imgRead (fromBitmap b approx).image ((py * (b.width + 2) + px : Nat) : Int)
      = some (int8OfByte
          ((fromBitmap b approx).image.getD (py * (b.width + 2) + px) 0)) := by
  have hidx : py * (b.width + 2) + px < (b.width + 2) * (b.height + 2) :=
    index_lt_size _ _ _ _ hpx hpy
  have hle : ((py * (b.width + 2) + px : Nat) : Int)
      < ((fromBitmap b approx).image.length : Int) := by
    rw [fromBitmap_image_length]
    exact_mod_cast hidx
  rw [imgRead, if_pos ⟨Int.natCast_nonneg _, hle⟩]
  congr 1

/-- Any in-grid cell of the padded image of an all-false bitmap reads 0. -/
theorem fromBitmap_image_empty (b : Bitmap) (approx : ContourApproximation)
    (hempty : ∀ x' < b.width, ∀ y' < b.height, b.get x' y' = false)
    (px py : Nat) (hpx : px < b.width + 2) (hpy : py < b.height + 2) :
    imgRead (fromBitmap b approx).image ((py * (b.width + 2) + px : Nat) : Int) = some 0 := by
  rw [fromBitmap_imgRead b approx px py hpx hpy,
    fromBitmap_image_getD b approx px py hpx hpy]
  rw [if_neg ?_]
  · rfl
  · rintro ⟨h1, h2, h3, h4, h5⟩
    have hfalse := hempty (px - 1) (by omega) (py - 1) (by omega)
    rw [Bitmap.get] at hfalse
    rw [hfalse] at h5
    cases h5

/-- Any in-grid cell of the padded image of a single-pixel bitmap reads 1 at
the (shifted) pixel and 0 everywhere else. -/
theorem fromBitmap_image_single (b : Bitmap) (approx : ContourApproximation) (x y : Nat)
    (hx : x < b.width) (hy : y < b.height)
    (hone : ∀ x' < b.width, ∀ y' < b.height, (b.get x' y' = true ↔ (x' = x ∧ y' = y)))
    (px py : Nat) (hpx : px < b.width + 2) (hpy : py < b.height + 2) :
    imgRead (fromBitmap b approx).image ((py * (b.width + 2) + px : Nat) : Int)
      = some (if px = x + 1 ∧ py = y + 1 then 1 else 0) := by
  rw [fromBitmap_imgRead b approx px py hpx hpy,
    fromBitmap_image_getD b approx px py hpx hpy]
  by_cases hpix : px = x + 1 ∧ py = y + 1
  · obtain ⟨rfl, rfl⟩ := hpix
    rw [if_pos ?_, if_pos ⟨rfl, rfl⟩]
    · rfl
    · refine ⟨by omega, by omega, by omega, by omega, ?_⟩
      have htrue := (hone x hx y hy).mpr ⟨rfl, rfl⟩
      rw [Bitmap.get] at htrue
      have he1 : x + 1 - 1 = x := by omega
      have he2 : y + 1 - 1 = y := by omega
      rw [he1, he2]
      exact htrue
  · rw [if_neg hpix, if_neg ?_]
    · rfl
    · rintro ⟨h1, h2, h3, h4, h5⟩
      have hmem := (hone (px - 1) (by omega) (py - 1) (by omega)).mp h5
      exact hpix ⟨by omega, by omega⟩

/-- The skip loop runs over a zero run of length `n` reaching the row's last
column slot. -/
theorem skipPhase_zeros (st : ContourExtractor) :
    ∀ (n x i : Nat) (cur : Option Int) (fuel : Nat), x + n = st.width - 1 → n < fuel →
      (∀ t < n, imgRead st.image ((i + t : Nat) : Int) = some 0) →
      skipPhase st (some 0) x i cur fuel
        = (st.width - 1, i + n, if n = 0 then cur else some 0)
  | 0, x, i, cur, fuel, hx, hf, _ => by
    cases fuel with
    | zero => omega
    | succ fuel =>
      rw [skipPhase, if_neg (by omega)]
      rw [show x = st.width - 1 from by omega]
      simp
  | n + 1, x, i, cur, fuel, hx, hf, hz => by
    cases fuel with
    | zero => omega
    | succ fuel =>
      rw [skipPhase, if_pos (by omega)]
      have h0 : imgRead st.image ((i : Nat) : Int) = some 0 := by
        have h := hz 0 (by omega)
        rwa [show i + 0 = i from by omega] at h
      rw [h0, if_pos rfl]
      have hz' : ∀ t < n, imgRead st.image ((i + 1 + t : Nat) : Int) = some 0 := by
        intro t ht
        have h := hz (t + 1) (by omega)
        rwa [show i + (t + 1) = i + 1 + t from by omega] at h
      rw [skipPhase_zeros st n (x + 1) (i + 1) (some 0) fuel (by omega) (by omega) hz']
      have hi : i + 1 + n = i + (n + 1) := by omega
      rw [hi]
      cases n with
      | zero => rfl
      | succ m => rfl

/-- The skip loop runs over a zero run of length `n` and stops at a non-zero
value strictly before the last column slot. -/
theorem skipPhase_hit (st : ContourExtractor) :
    ∀ (n x i : Nat) (cur : Option Int) (fuel : Nat), x + n < st.width - 1 → n < fuel →
      (∀ t < n, imgRead st.image ((i + t : Nat) : Int) = some 0) →
      imgRead st.image ((i + n : Nat) : Int) ≠ some 0 →
      skipPhase st (some 0) x i cur fuel
        = (x + n, i + n, imgRead st.image ((i + n : Nat) : Int))
  | 0, x, i, cur, fuel, hx, hf, _, hv => by
    cases fuel with
    | zero => omega
    | succ fuel =>
      rw [skipPhase, if_pos (by omega)]
      rw [if_neg (by
        intro hc
        exact hv (by rwa [show i + 0 = i from by omega]))]
      rw [show i + 0 = i from by omega]
      simp
  | n + 1, x, i, cur, fuel, hx, hf, hz, hv => by
    cases fuel with
    | zero => omega
    | succ fuel =>
      rw [skipPhase, if_pos (by omega)]
      have h0 : imgRead st.image ((i : Nat) : Int) = some 0 := by
        have h := hz 0 (by omega)
        rwa [show i + 0 = i from by omega] at h
      rw [h0, if_pos rfl]
      have hz' : ∀ t < n, imgRead st.image ((i + 1 + t : Nat) : Int) = some 0 := by
        intro t ht
        have h := hz (t + 1) (by omega)
        rwa [show i + (t + 1) = i + 1 + t from by omega] at h
      have hv' : imgRead st.image ((i + 1 + n : Nat) : Int) ≠ some 0 := by
        rwa [show i + 1 + n = i + (n + 1) from by omega]
      rw [skipPhase_hit st n (x + 1) (i + 1) (some 0) fuel (by omega) (by omega) hz' hv']
      rw [show x + 1 + n = x + (n + 1) from by omega,
        show i + 1 + n = i + (n + 1) from by omega]

/-- A row whose scanned cells are all zero leaves the state untouched. -/
theorem rowLoop_zeros (st : ContourExtractor) (y : Nat)
    (hz : ∀ t, 1 ≤ t → t ≤ st.width - 2 →
      imgRead st.image ((y * st.width + t : Nat) : Int) = some 0)
    (fuel : Nat) (hfuel : 2 ≤ fuel) :
    rowLoop y fuel st 1 (y * st.width + 1) (some 0) = st := by
  obtain ⟨f, rfl⟩ : ∃ f, fuel = f + 1 + 1 := ⟨fuel - 2, by omega⟩
  by_cases hw : 3 ≤ st.width
  · rw [rowLoop, if_pos (by omega)]
    have hskip := skipPhase_zeros st (st.width - 2) 1 (y * st.width + 1) none st.width
      (by omega) (by omega) (by
        intro t ht
        have h := hz (1 + t) (by omega) (by omega)
        rwa [show y * st.width + (1 + t) = y * st.width + 1 + t from by omega] at h)
    rw [hskip]
    have hn0 : ¬(st.width - 2 = 0) := by omega
    rw [if_neg hn0]
    rw [if_neg (by omega)]
    rw [if_pos (by
      refine ⟨?_, Or.inr ?_⟩
      · rintro ⟨-, hc⟩
        cases hc
      · rfl)]
    rw [if_neg (by
      show ¬jsAndOpt (some 0) 254 ≠ 0
      decide)]
    rw [rowLoop, if_neg (by omega)]
  · rw [rowLoop, if_neg (by omega)]

/-- One unfolding of the row iteration. -/
theorem scanRows_succ (fuel : Nat) (st : ContourExtractor) (y : Nat) (hy : y < st.height - 1) :
    scanRows (fuel + 1) st y
      = scanRows fuel
          (rowLoop y st.width (withLnbd st (0, y)) 1 (y * st.width + 1) (some 0)) (y + 1) := by
  rw [scanRows, if_pos hy]
  rfl

/-- From any starting row, a scan over rows whose cells are all zero
preserves the tree (only the `lnbd` cursor moves). -/
theorem scanRows_zeros_tail :
    ∀ (fuel : Nat) (st : ContourExtractor), 2 ≤ st.width →
      ∀ y0, (∀ y' t, y0 ≤ y' → y' < st.height - 1 → 1 ≤ t → t ≤ st.width - 2 →
        imgRead st.image ((y' * st.width + t : Nat) : Int) = some 0) →
      (scanRows fuel st y0).tree = st.tree
  | 0, _, _, _, _ => rfl
  | fuel + 1, st, hw, y0, hz => by
    by_cases hy : y0 < st.height - 1
    · rw [scanRows_succ fuel st y0 hy]
      have hrow : rowLoop y0 st.width (withLnbd st (0, y0)) 1 (y0 * st.width + 1) (some 0)
          = withLnbd st (0, y0) :=
        rowLoop_zeros (withLnbd st (0, y0)) y0
          (fun t h1 h2 => hz y0 t (Nat.le_refl y0) hy h1 h2) st.width hw
      rw [hrow]
      exact scanRows_zeros_tail fuel (withLnbd st (0, y0)) hw (y0 + 1)
        (fun y' t h0 h1 h2 h3 => hz y' t (by omega) h1 h2 h3)
    · rw [scanRows, if_neg hy]

/-- Reading back the cell a typed-array store just wrote (in range). -/
theorem imgRead_imgWrite_self (img : List Nat) (i : Int) (v : Nat)
    (h : 0 ≤ i ∧ i < (img.length : Int)) :
    imgRead (imgWrite img i v) i = some (int8OfByte v) := by
  rw [imgWrite, if_pos h, imgRead]
  rw [if_pos (by
    constructor
    · exact h.1
    · rw [List.length_set]
      exact h.2)]
  rw [listGetD_set_self]
  omega

/-- A typed-array store leaves every other index's read unchanged. -/
theorem imgRead_imgWrite_ne (img : List Nat) (i j : Int) (v : Nat) (hne : j ≠ i) :
    imgRead (imgWrite img i v) j = imgRead img j := by
  rw [imgWrite]
  by_cases hi : 0 ≤ i ∧ i < (img.length : Int)
  · rw [if_pos hi, imgRead, imgRead, List.length_set]
    by_cases hj : 0 ≤ j ∧ j < (img.length : Int)
    · rw [if_pos hj, if_pos hj]
      rw [listGetD_set_ne]
      intro hc
      exact hne (by omega)
    · rw [if_neg hj, if_neg hj]
  · rw [if_neg hi]

/-- The do-while direction search around a cell with no non-zero neighbour
cycles back to `sEnd = 4` (the isolated-pixel configuration of an outer
border start). -/
theorem initDir_isolated (img : List Nat) (w : Nat) (i0 : Int)
    (hn : ∀ s < 8, checkValue img (i0 + getIndexDelta w s) = false) :
    initDir img w i0 4 = (4, i0 + getIndexDelta w 4) := by
  have h0 := hn 0 (by omega)
  have h1 := hn 1 (by omega)
  have h2 := hn 2 (by omega)
  have h3 := hn 3 (by omega)
  have h4 := hn 4 (by omega)
  have h5 := hn 5 (by omega)
  have h6 := hn 6 (by omega)
  have h7 := hn 7 (by omega)
  simp only [initDir, initDirAux]
  norm_num [h0, h1, h2, h3, h4, h5, h6, h7]

/-- In the padded grid of a single-pixel bitmap every in-grid cell other than
the (shifted) pixel reads 0. -/
theorem fromBitmap_single_other (b : Bitmap) (approx : ContourApproximation) (x y : Nat)
    (hx : x < b.width) (hy : y < b.height)
    (hone : ∀ x' < b.width, ∀ y' < b.height, (b.get x' y' = true ↔ (x' = x ∧ y' = y)))
    (px py : Nat) (hpx : px < b.width + 2) (hpy : py < b.height + 2)
    (hne : ¬(px = x + 1 ∧ py = y + 1)) :
    imgRead (fromBitmap b approx).image ((py * (b.width + 2) + px : Nat) : Int) = some 0 := by
  rw [fromBitmap_image_single b approx x y hx hy hone px py hpx hpy, if_neg hne]

/-- From any column position, a zero run to the end of the row (scanned with
`prev = 0`) leaves the state untouched. -/
theorem rowLoop_zeros_from (st : ContourExtractor) (y x i : Nat)
    (hz : ∀ t, t < st.width - 1 - x → imgRead st.image ((i + t : Nat) : Int) = some 0)
    (fuel : Nat) (hfuel : 2 ≤ fuel) :
    rowLoop y fuel st x i (some 0) = st := by
  obtain ⟨f, rfl⟩ : ∃ f, fuel = f + 1 + 1 := ⟨fuel - 2, by omega⟩
  by_cases hxw : x < st.width - 1
  · rw [rowLoop, if_pos hxw]
    have hskip := skipPhase_zeros st (st.width - 1 - x) x i none st.width
      (by omega) (by omega) hz
    rw [hskip]
    have hn0 : ¬(st.width - 1 - x = 0) := by omega
    rw [if_neg hn0]
    rw [if_neg (by omega)]
    rw [if_pos (by
      refine ⟨?_, Or.inr ?_⟩
      · rintro ⟨-, hc⟩
        cases hc
      · rfl)]
    rw [if_neg (by
      show ¬jsAndOpt (some 0) 254 ≠ 0
      decide)]
    rw [rowLoop, if_neg (by omega)]
  · rw [rowLoop, if_neg hxw]

/-- The skip loop stops immediately when the first value read differs. -/
theorem skipPhase_stop (st : ContourExtractor) (prev : Option Int) (x i : Nat)
    (cur : Option Int) (fuel : Nat) (hfuel : 1 ≤ fuel) (hx : x < st.width - 1)
    (hv : imgRead st.image ((i : Nat) : Int) ≠ prev) :
    skipPhase st prev x i cur fuel = (x, i, imgRead st.image ((i : Nat) : Int)) := by
  obtain ⟨g, rfl⟩ : ∃ g, fuel = g + 1 := ⟨fuel - 1, by omega⟩
  rw [skipPhase, if_pos hx, if_neg hv]

/-- With a stale negative `prev` and only zeros left, the rest of the row
scan has no effect. -/
theorem rowLoop_junk_prev (st : ContourExtractor) (y : Nat) (x i : Nat) (p : Int)
    (hp : p < 1) (hp0 : p ≠ 0)
    (hz : ∀ t, t < st.width - 1 - x → imgRead st.image ((i + t : Nat) : Int) = some 0)
    (fuel : Nat) (hfuel : 1 ≤ fuel) (hfuelA : x < st.width - 1 → 3 ≤ fuel) :
    rowLoop y fuel st x i (some p) = st := by
  by_cases hxw : x < st.width - 1
  · obtain ⟨f, rfl⟩ : ∃ f, fuel = f + 1 := ⟨fuel - 1, by omega⟩
    rw [rowLoop, if_pos hxw]
    have h0 : imgRead st.image ((i : Nat) : Int) = some 0 := hz 0 (by omega)
    rw [skipPhase_stop st (some p) x i none st.width (by omega) hxw
      (by rw [h0]; exact fun hc => hp0 (Option.some.inj hc).symm)]
    rw [h0]
    simp only []
    rw [if_neg (show ¬(x ≥ st.width) by omega)]
    rw [if_pos (show (¬((some p : Option Int) = some 0 ∧ (some 0 : Option Int) = some 1) ∧
        (¬True ∨ jsLtOne (some p) = true)) from
      ⟨fun hc => hp0 (Option.some.inj hc.1),
        Or.inr (by simp only [jsLtOne, decide_eq_true_eq]; exact hp)⟩)]
    rw [if_neg (show ¬(jsAndOpt (some 0) 254 ≠ 0) by decide)]
    exact rowLoop_zeros_from st y (x + 1) (i + 1)
      (fun t ht => by
        rw [show i + 1 + t = i + (t + 1) from by omega]
        exact hz (t + 1) (by omega))
      f (by omega)
  · obtain ⟨f, rfl⟩ : ∃ f, fuel = f + 1 := ⟨fuel - 1, by omega⟩
    rw [rowLoop, if_neg hxw]

/-- `makeContour(false, start)` on an isolated pixel: single point, unit box,
right-flag write, node registered under `nbd = 3`. -/
theorem makeContour_isolated (st : ContourExtractor) (start : Nat × Nat)
    (hnbd : st.nbd = 2)
    (hn : ∀ s < 8,
      checkValue st.image (coordsToIndex st.width start + getIndexDelta st.width s) = false) :
    makeContour st false start
      = (⟨imgWrite st.image (coordsToIndex st.width start) 131, st.width, st.height, st.approx,
          (st.tree.new ⟨[((start.1 : Int) - 1, (start.2 : Int) - 1)], false, start,
            ⟨(start.1 : Int), (start.2 : Int), 1, 1⟩, st.ctable.getD 3 none⟩).1,
          st.ctable.set 3 (some st.tree.values.length), st.lnbd, 3⟩,
        st.tree.values.length) := by
  have hinit := initDir_isolated st.image st.width (coordsToIndex st.width start) hn
  have h131 : (3 : Nat) ||| 128 = 131 := by decide
  simp only [makeContour, makeContourTrace, hnbd]
  norm_num [hinit, h131, finishRect, Tree.new, Prod.ext_iff]
  omega

/-- The contour a single isolated pixel `(x, y)` produces. -/
def singleContour (x y : Nat) : Contour :=
  ⟨[((x : Int), (y : Int))], false, (x + 1, y + 1), ⟨(x : Int) + 1, (y : Int) + 1, 1, 1⟩, none⟩

/-- Scanning the pixel row of a single-pixel bitmap: one outer border is
started at the pixel, producing the isolated-pixel contour as tree node 0,
the `ctable[3]` entry and the right-flag write, and nothing else. -/
theorem rowLoop_single (b : Bitmap) (approx : ContourApproximation) (x y : Nat)
    (hx : x < b.width) (hy : y < b.height)
    (hone : ∀ x' < b.width, ∀ y' < b.height, (b.get x' y' = true ↔ (x' = x ∧ y' = y)))
    (fuel : Nat) (hfuel : b.width + 2 ≤ fuel) :
    rowLoop (y + 1) fuel
        ⟨(fromBitmap b approx).image, b.width + 2, b.height + 2, approx, Tree.create,
          List.replicate 127 none, (0, y + 1), 2⟩
        1 ((y + 1) * (b.width + 2) + 1) (some 0)
      = ⟨imgWrite (fromBitmap b approx).image
            (coordsToIndex (b.width + 2) (x + 1, y + 1)) 131,
          b.width + 2, b.height + 2, approx,
          ((Tree.create : Tree Contour).new (singleContour x y)).1,
          (List.replicate 127 (none : Option Nat)).set 3 (some 0), (x + 1, y + 1), 3⟩ := by
  obtain ⟨f, rfl⟩ : ∃ f, fuel = f + 1 + 1 := ⟨fuel - 2, by omega⟩
  have hmulc : (y + 1) * (b.width + 2) = (b.width + 2) * (y + 1) := Nat.mul_comm _ _
  have hrow1 : ∀ t, t < x →
      imgRead (fromBitmap b approx).image
        (((y + 1) * (b.width + 2) + 1 + t : Nat) : Int) = some 0 := by
    intro t ht
    rw [show (y + 1) * (b.width + 2) + 1 + t = (y + 1) * (b.width + 2) + (1 + t) from by omega]
    exact fromBitmap_single_other b approx x y hx hy hone (1 + t) (y + 1) (by omega) (by omega)
      (by omega)
  have hpix : imgRead (fromBitmap b approx).image
      (((y + 1) * (b.width + 2) + 1 + x : Nat) : Int) = some 1 := by
    rw [show (y + 1) * (b.width + 2) + 1 + x = (y + 1) * (b.width + 2) + (x + 1) from by omega]
    rw [fromBitmap_image_single b approx x y hx hy hone (x + 1) (y + 1) (by omega) (by omega)]
    simp
  rw [rowLoop, if_pos (show (1 : Nat) < b.width + 2 - 1 by omega)]
  rw [skipPhase_hit (⟨(fromBitmap b approx).image, b.width + 2, b.height + 2, approx,
        Tree.create, List.replicate 127 none, (0, y + 1), 2⟩ : ContourExtractor) x 1
      ((y + 1) * (b.width + 2) + 1) none (b.width + 2)
    (show 1 + x < b.width + 2 - 1 by omega) (by omega) (fun t ht => hrow1 t ht)
    (show imgRead (fromBitmap b approx).image
        (((y + 1) * (b.width + 2) + 1 + x : Nat) : Int) ≠ some 0 by
      rw [hpix]
      exact fun hc => by cases hc)]
  rw [hpix]
  simp only []
  have hlv : imgRead (fromBitmap b approx).image
      (coordsToIndex (b.width + 2) (0, y + 1)) = some 0 := by
    rw [show coordsToIndex (b.width + 2) (0, y + 1)
        = (((y + 1) * (b.width + 2) + 0 : Nat) : Int) by
      show ((0 + (b.width + 2) * (y + 1) : Nat) : Int) = _
      congr 1
      omega]
    exact fromBitmap_single_other b approx x y hx hy hone 0 (y + 1) (by omega) (by omega)
      (by omega)
  have hpar : ∀ lv, findFirstBoundingContour
      (⟨(fromBitmap b approx).image, b.width + 2, b.height + 2, approx, Tree.create,
        List.replicate 127 none, (0, y + 1), 2⟩ : ContourExtractor) (y + 1) lv = none := by
    intro lv
    rw [findFirstBoundingContour]
    rw [show (⟨(fromBitmap b approx).image, b.width + 2, b.height + 2, approx, Tree.create,
        List.replicate 127 none, (0, y + 1), 2⟩ : ContourExtractor).ctable.getD lv none
        = none from by
      show (List.replicate 127 (none : Option Nat)).getD lv none = none
      rw [List.getD_eq_getElem?_getD, List.getElem?_replicate]
      rcases Nat.lt_or_ge lv 127 with h | h
      · rw [if_pos h]
        rfl
      · rw [if_neg (by omega)]
        rfl]
    rfl
  rw [if_neg (show ¬(1 + x ≥ b.width + 2) by omega)]
  norm_num [hlv, hpar, jsAndOpt, jsLtOne]
  rw [show 1 + x = x + 1 from by omega]
  have hn8 : ∀ s < 8, checkValue (fromBitmap b approx).image
      (coordsToIndex (b.width + 2) (x + 1, y + 1) + getIndexDelta (b.width + 2) s) = false := by
    have hnb : ∀ (px' py' : Nat), px' < b.width + 2 → py' < b.height + 2 →
        ¬(px' = x + 1 ∧ py' = y + 1) →
        checkValue (fromBitmap b approx).image
          (((py' * (b.width + 2) + px' : Nat) : Int)) = false := by
      intro px' py' h1 h2 h3
      simp only [checkValue]
      rw [fromBitmap_single_other b approx x y hx hy hone px' py' h1 h2 h3]
      decide
    have hdelta : ∀ (s : Nat) (px' py' : Nat), s < 8 →
        coordsToIndex (b.width + 2) (x + 1, y + 1) + getIndexDelta (b.width + 2) s
          = ((py' * (b.width + 2) + px' : Nat) : Int) →
        px' < b.width + 2 → py' < b.height + 2 → ¬(px' = x + 1 ∧ py' = y + 1) →
        checkValue (fromBitmap b approx).image
          (coordsToIndex (b.width + 2) (x + 1, y + 1) + getIndexDelta (b.width + 2) s)
          = false := by
      intro s px' py' hs heq h1 h2 h3
      rw [heq]
      exact hnb px' py' h1 h2 h3
    intro s hs
    interval_cases s
    · refine hdelta 0 (x + 2) (y + 1) (by omega) ?_ (by omega) (by omega) (by omega)
      show ((x + 1 + (b.width + 2) * (y + 1) : Nat) : Int) + _ = _
      simp [getIndexDelta, DX, DY, List.getD]
      ring
    · refine hdelta 1 (x + 2) (y + 2) (by omega) ?_ (by omega) (by omega) (by omega)
      show ((x + 1 + (b.width + 2) * (y + 1) : Nat) : Int) + _ = _
      simp [getIndexDelta, DX, DY, List.getD]
      ring
    · refine hdelta 2 (x + 1) (y + 2) (by omega) ?_ (by omega) (by omega) (by omega)
      show ((x + 1 + (b.width + 2) * (y + 1) : Nat) : Int) + _ = _
      simp [getIndexDelta, DX, DY, List.getD]
      ring
    · refine hdelta 3 x (y + 2) (by omega) ?_ (by omega) (by omega) (by omega)
      show ((x + 1 + (b.width + 2) * (y + 1) : Nat) : Int) + _ = _
      simp [getIndexDelta, DX, DY, List.getD]
      ring
    · refine hdelta 4 x (y + 1) (by omega) ?_ (by omega) (by omega) (by omega)
      show ((x + 1 + (b.width + 2) * (y + 1) : Nat) : Int) + _ = _
      simp [getIndexDelta, DX, DY, List.getD]
      ring
    · refine hdelta 5 x y (by omega) ?_ (by omega) (by omega) (by omega)
      show ((x + 1 + (b.width + 2) * (y + 1) : Nat) : Int) + _ = _
      simp [getIndexDelta, DX, DY, List.getD]
      ring
    · refine hdelta 6 (x + 1) y (by omega) ?_ (by omega) (by omega) (by omega)
      show ((x + 1 + (b.width + 2) * (y + 1) : Nat) : Int) + _ = _
      simp [getIndexDelta, DX, DY, List.getD]
      ring
    · refine hdelta 7 (x + 2) y (by omega) ?_ (by omega) (by omega) (by omega)
      show ((x + 1 + (b.width + 2) * (y + 1) : Nat) : Int) + _ = _
      simp [getIndexDelta, DX, DY, List.getD]
      ring
  have hmk := makeContour_isolated
    (⟨(fromBitmap b approx).image, b.width + 2, b.height + 2, approx, Tree.create,
      List.replicate 127 none, (x + 1, y + 1), 2⟩ : ContourExtractor) (x + 1, y + 1) rfl hn8
  rw [hmk]
  have hget3 : (List.replicate 127 (none : Option Nat)).getD 3 none = none := by
    rw [List.getD_eq_getElem?_getD, List.getElem?_replicate, if_pos (by omega)]
    rfl
  have hprev : imgRead (imgWrite (fromBitmap b approx).image
      (coordsToIndex (b.width + 2) (x + 1, y + 1)) 131)
      (((y : Int) + 1) * ((b.width : Int) + 2) + 1 + (x : Int)) = some (-125) := by
    rw [show (((y : Int) + 1) * ((b.width : Int) + 2) + 1 + (x : Int))
        = coordsToIndex (b.width + 2) (x + 1, y + 1) by
      show _ = ((x + 1 + (b.width + 2) * (y + 1) : Nat) : Int)
      push_cast
      ring]
    rw [imgRead_imgWrite_self]
    · norm_num [int8OfByte]
    · constructor
      · exact Int.natCast_nonneg _
      · show ((x + 1 + (b.width + 2) * (y + 1) : Nat) : Int) < _
        rw [fromBitmap_image_length]
        have h1 := index_lt_size (b.width + 2) (b.height + 2) (x + 1) (y + 1)
          (by omega) (by omega)
        exact_mod_cast (by omega : x + 1 + (b.width + 2) * (y + 1)
          < (b.width + 2) * (b.height + 2))
  have hwr : ∀ (c : Nat), c ≠ x + 1 → c < b.width + 2 →
      imgRead (imgWrite (fromBitmap b approx).image
          (coordsToIndex (b.width + 2) (x + 1, y + 1)) 131)
        (((y + 1) * (b.width + 2) + c : Nat) : Int) = some 0 := by
    intro c hc hcw
    rw [imgRead_imgWrite_ne]
    · exact fromBitmap_single_other b approx x y hx hy hone c (y + 1) hcw (by omega) (by omega)
    · show (((y + 1) * (b.width + 2) + c : Nat) : Int)
          ≠ ((x + 1 + (b.width + 2) * (y + 1) : Nat) : Int)
      intro hc2
      have hc3 : (y + 1) * (b.width + 2) + c = x + 1 + (b.width + 2) * (y + 1) := by
        exact_mod_cast hc2
      omega
  norm_num [Tree.create, Tree.new, hget3, hprev, singleContour]
  apply rowLoop_junk_prev
  · norm_num
  · norm_num
  · intro t ht
    have ht' : t < b.width + 2 - 1 - (x + 1 + 1) := ht
    rw [show (y + 1) * (b.width + 2) + 1 + x + 1 + t
        = (y + 1) * (b.width + 2) + (x + 2 + t) from by omega]
    exact hwr (x + 2 + t) (by omega) (by omega)
  · omega
  · intro h
    have h' : x + 1 + 1 < b.width + 2 - 1 := h
    omega



/-- From any not-yet-reached row at or before the pixel row, scanning the
rest of a single-pixel grid yields exactly the one-node tree holding the
isolated-pixel contour. -/
theorem scanRows_single_from (b : Bitmap) (approx : ContourApproximation) (x y : Nat)
    (hx : x < b.width) (hy : y < b.height)
    (hone : ∀ x' < b.width, ∀ y' < b.height, (b.get x' y' = true ↔ (x' = x ∧ y' = y))) :
    ∀ (fuel : Nat) (l : Nat × Nat) (y0 : Nat), 1 ≤ y0 → y0 ≤ y + 1 → y + 2 - y0 ≤ fuel →
      (scanRows fuel (withLnbd (fromBitmap b approx) l) y0).tree
        = ((Tree.create : Tree Contour).new (singleContour x y)).1
  | 0, _, y0, _, h2, h3 => absurd h3 (by omega)
  | fuel + 1, l, y0, h1, h2, h3 => by
    have hy0 : y0 < (withLnbd (fromBitmap b approx) l).height - 1 := by
      show y0 < b.height + 2 - 1
      omega
    rw [scanRows_succ fuel _ y0 hy0]
    by_cases hpr : y0 = y + 1
    · subst hpr
      have hrow : rowLoop (y + 1) (withLnbd (fromBitmap b approx) l).width
          (withLnbd (withLnbd (fromBitmap b approx) l) (0, y + 1)) 1
          ((y + 1) * (withLnbd (fromBitmap b approx) l).width + 1) (some 0)
          = (⟨imgWrite (fromBitmap b approx).image
                (coordsToIndex (b.width + 2) (x + 1, y + 1)) 131,
              b.width + 2, b.height + 2, approx,
              ((Tree.create : Tree Contour).new (singleContour x y)).1,
              (List.replicate 127 (none : Option Nat)).set 3 (some 0), (x + 1, y + 1), 3⟩ :
              ContourExtractor) :=
        rowLoop_single b approx x y hx hy hone (b.width + 2) (Nat.le_refl _)
      rw [hrow]
      have htail := scanRows_zeros_tail fuel
        (⟨imgWrite (fromBitmap b approx).image
            (coordsToIndex (b.width + 2) (x + 1, y + 1)) 131,
          b.width + 2, b.height + 2, approx,
          ((Tree.create : Tree Contour).new (singleContour x y)).1,
          (List.replicate 127 (none : Option Nat)).set 3 (some 0), (x + 1, y + 1), 3⟩ :
          ContourExtractor)
        (show (2 : Nat) ≤ b.width + 2 by omega) (y + 1 + 1)
        (by
          intro y' t hy' hyh h1t ht
          have hyh' : y' < b.height + 2 - 1 := hyh
          have ht' : t ≤ b.width + 2 - 2 := ht
          show imgRead (imgWrite (fromBitmap b approx).image
              (coordsToIndex (b.width + 2) (x + 1, y + 1)) 131)
            ((y' * (b.width + 2) + t : Nat) : Int) = some 0
          rw [imgRead_imgWrite_ne]
          · exact fromBitmap_single_other b approx x y hx hy hone t y' (by omega) (by omega)
              (by omega)
          · show ((y' * (b.width + 2) + t : Nat) : Int)
                ≠ ((x + 1 + (b.width + 2) * (y + 1) : Nat) : Int)
            intro hc2
            have hc3 : y' * (b.width + 2) + t = x + 1 + (b.width + 2) * (y + 1) := by
              exact_mod_cast hc2
            have hm1 : (y + 2) * (b.width + 2) ≤ y' * (b.width + 2) :=
              Nat.mul_le_mul_right _ (by omega)
            have hm2 : (y + 2) * (b.width + 2) = (b.width + 2) * (y + 1) + (b.width + 2) := by
              ring
            omega)
      rw [htail]
    · have hrow : rowLoop y0 (withLnbd (fromBitmap b approx) l).width
          (withLnbd (withLnbd (fromBitmap b approx) l) (0, y0)) 1
          (y0 * (withLnbd (fromBitmap b approx) l).width + 1) (some 0)
          = withLnbd (fromBitmap b approx) (0, y0) :=
        rowLoop_zeros (withLnbd (fromBitmap b approx) (0, y0)) y0
          (fun t h1t h2t => by
            have h2t' : t ≤ b.width + 2 - 2 := h2t
            show imgRead (fromBitmap b approx).image
              ((y0 * (b.width + 2) + t : Nat) : Int) = some 0
            exact fromBitmap_single_other b approx x y hx hy hone t y0 (by omega) (by omega)
              (by omega))
          (b.width + 2) (by omega)
      rw [hrow]
      exact scanRows_single_from b approx x y hx hy hone fuel (0, y0) (y0 + 1) (by omega)
        (by omega) (by omega)


/-- A freshly created tree holding exactly one node has exactly that node as
its root list. -/
theorem getRoots_one (c : Contour) :
    (((Tree.create : Tree Contour).new c).1).getRoots = [0] := by
  simp [Tree.getRoots, Tree.new, Tree.create, TREE_MAX, List.getD]
  decide

/-- C3: `extractContours` on a bitmap with no set cells returns a tree with
zero roots; on a bitmap whose set cells are exactly one cell `(x, y)` it
returns a tree with exactly one root (node 0) whose contour has
`isHole = false` and whose point list is exactly `[(x, y)]`. -/
theorem extract_empty_and_single (b : Bitmap) (approx : ContourApproximation) :
    ((∀ x' < b.width, ∀ y' < b.height, b.get x' y' = false) →
      (extractContours (fromBitmap b approx)).getRoots = [])
    ∧ (∀ x y, x < b.width → y < b.height →
      (∀ x' < b.width, ∀ y' < b.height, (b.get x' y' = true ↔ (x' = x ∧ y' = y))) →
      (extractContours (fromBitmap b approx)).getRoots = [0]
      ∧ ((extractContours (fromBitmap b approx)).get 0).isHole = false
      ∧ ((extractContours (fromBitmap b approx)).get 0).points = [((x : Int), (y : Int))]) := by
  constructor
  · intro hempty
    have hmain : extractContours (fromBitmap b approx) = (fromBitmap b approx).tree :=
      scanRows_zeros_tail (fromBitmap b approx).height (fromBitmap b approx)
        (show (2 : Nat) ≤ b.width + 2 from by omega) 1
        (by
          intro y' t hy' hyh h1t ht
          have hyh' : y' < b.height + 2 - 1 := hyh
          have ht' : t ≤ b.width + 2 - 2 := ht
          show imgRead (fromBitmap b approx).image
            ((y' * (b.width + 2) + t : Nat) : Int) = some 0
          exact fromBitmap_image_empty b approx hempty t y' (by omega) (by omega))
    rw [hmain]
    rfl
  · intro x y hx hy hone
    have hmain : extractContours (fromBitmap b approx)
        = ((Tree.create : Tree Contour).new (singleContour x y)).1 :=
      scanRows_single_from b approx x y hx hy hone (fromBitmap b approx).height (0, 1) 1
        (Nat.le_refl 1) (by omega) (by show y + 2 - 1 ≤ b.height + 2; omega)
    rw [hmain]
    exact ⟨getRoots_one (singleContour x y), rfl, rfl⟩

/-- Concrete instantiation of the empty and single-pixel extraction claims:
an all-clear 3x2 bitmap yields no roots; setting only cell (1, 0) yields the
single one-point outer contour. -/
theorem extract_empty_and_single_witness :
    ((extractContours (fromBitmap (Bitmap.create 3 2) ContourApproximation.Simple)).getRoots
        = [])
    ∧ ((extractContours (fromBitmap ((Bitmap.create 3 2).set 1 0 true)
          ContourApproximation.None)).getRoots = [0]
      ∧ ((extractContours (fromBitmap ((Bitmap.create 3 2).set 1 0 true)
          ContourApproximation.None)).get 0).isHole = false
      ∧ ((extractContours (fromBitmap ((Bitmap.create 3 2).set 1 0 true)
          ContourApproximation.None)).get 0).points = [((1 : Int), (0 : Int))]) :=
  ⟨(extract_empty_and_single (Bitmap.create 3 2) ContourApproximation.Simple).1 (by decide),
   (extract_empty_and_single ((Bitmap.create 3 2).set 1 0 true)
      ContourApproximation.None).2 1 0 (by decide) (by decide) (by decide)⟩

end ContourExtractor

/-! ## Frame effect of thinning and extraction (claim C7)

The mutation claim is about buffer aliasing, so buffers are given identity in
an explicit heap: a bitmap's `data` and the extractor's `Int8Array` working
grid are byte buffers living at indices of the heap.  Both algorithms
allocate a fresh buffer (`map.clone()` resp. `new Int8Array(w * h)`) and all
their writes target it; the pure functions above compute that buffer's final
contents. -/

/-- A heap of typed-array byte buffers. -/
structure Heap where
  bufs : List (List Nat)

/-- Dereference a buffer. -/
def Heap.read (h : Heap) (r : Nat) : List Nat := h.bufs.getD r []

/-- Overwrite a buffer's contents in place. -/
def Heap.write (h : Heap) (r : Nat) (d : List Nat) : Heap := ⟨h.bufs.set r d⟩

/-- A bitmap whose packed buffer lives in the heap. -/
structure BitmapRef where
  width : Nat
  height : Nat
  ref : Nat

/-- The bitmap value a reference currently denotes. -/
def BitmapRef.valueIn (b : BitmapRef) (h : Heap) : Bitmap :=
  ⟨b.width, b.height, h.read b.ref⟩

/-- `map.clone()` at the heap level: `new Uint8Array(this.data)` copies the
bytes into a freshly allocated buffer. -/
def cloneH (h : Heap) (b : BitmapRef) : Heap × BitmapRef :=
  (⟨h.bufs ++ [h.read b.ref]⟩, ⟨b.width, b.height, h.bufs.length⟩)

/-- `zhangSuenThinning(map)` at the heap level: clone the input, then run the
loop, whose `out.set` writes all land in the fresh clone buffer; the final
contents are what the pure `thinLoop` computes. -/
def zhangSuenThinningH (h : Heap) (b : BitmapRef) : Heap × BitmapRef :=
  let alloc := cloneH h b
  (alloc.1.write alloc.2.ref
    (thinLoop (popcount (alloc.2.valueIn alloc.1) + 1) (alloc.2.valueIn alloc.1)).data,
   alloc.2)

/-- `ContourExtractor.fromBitmap(b).extractContours()` at the heap level:
`fromBitmap` allocates the padded working grid (`new Int8Array(w * h)`) as a
fresh buffer; every image write of the extraction (`setRightFlag`,
`setNewFlag`) targets that buffer, whose final contents the pure scan
computes. -/
def extractContoursH (h : Heap) (b : BitmapRef) (approx : ContourApproximation) :
    Heap × Tree Contour :=
  let st := ContourExtractor.fromBitmap (b.valueIn h) approx
  let h1 : Heap := ⟨h.bufs ++ [st.image]⟩
  let final := ContourExtractor.scanRows st.height st 1
  (h1.write h.bufs.length final.image, final.tree)

/-- C7: neither contour extraction nor thinning mutates the source bitmap:
both allocate a fresh working buffer and write only through it, so after
either call every cell of `b` still reads its old value. -/
theorem extraction_and_thinning_do_not_mutate (h : Heap) (b : BitmapRef)
    (approx : ContourApproximation) (href : b.ref < h.bufs.length) :
    (∀ x y : Nat,
      (b.valueIn (extractContoursH h b approx).1).get x y = (b.valueIn h).get x y) ∧
    (∀ x y : Nat,
      (b.valueIn (zhangSuenThinningH h b).1).get x y = (b.valueIn h).get x y) := by
  have key : ∀ d d0 : List Nat,
      ((⟨h.bufs ++ [d0]⟩ : Heap).write h.bufs.length d).read b.ref = h.read b.ref := by
    intro d d0
    show ((h.bufs ++ [d0]).set h.bufs.length d).getD b.ref [] = h.bufs.getD b.ref []
    rw [List.getD_eq_getElem?_getD, List.getD_eq_getElem?_getD,
      List.getElem?_set_ne (by omega), List.getElem?_append, if_pos href]
  constructor
  · intro x y
    show bitGet (((⟨h.bufs ++ [_]⟩ : Heap).write h.bufs.length _).read b.ref) _
      = bitGet (h.read b.ref) _
    rw [key]
    rfl
  · intro x y
    show bitGet (((⟨h.bufs ++ [_]⟩ : Heap).write h.bufs.length _).read b.ref) _
      = bitGet (h.read b.ref) _
    rw [key]
    rfl

theorem extraction_and_thinning_do_not_mutate_witness :
    ((⟨8, 1, 0⟩ : BitmapRef).ref < (⟨[[1]]⟩ : Heap).bufs.length ∧
     (∀ x y : Nat,
       ((⟨8, 1, 0⟩ : BitmapRef).valueIn
         (extractContoursH ⟨[[1]]⟩ ⟨8, 1, 0⟩ ContourApproximation.None).1).get x y
         = ((⟨8, 1, 0⟩ : BitmapRef).valueIn ⟨[[1]]⟩).get x y) ∧
     (∀ x y : Nat,
       ((⟨8, 1, 0⟩ : BitmapRef).valueIn (zhangSuenThinningH ⟨[[1]]⟩ ⟨8, 1, 0⟩).1).get x y
         = ((⟨8, 1, 0⟩ : BitmapRef).valueIn ⟨[[1]]⟩).get x y)) :=
  ⟨by decide,
   (extraction_and_thinning_do_not_mutate ⟨[[1]]⟩ ⟨8, 1, 0⟩ ContourApproximation.None
     (by decide)).1,
   (extraction_and_thinning_do_not_mutate ⟨[[1]]⟩ ⟨8, 1, 0⟩ ContourApproximation.None
     (by decide)).2⟩

/-! ## Claims about extraction on concrete bitmaps (C1, C2) -/

/-- 3x3 bitmap whose set cells are exactly the two isolated pixels (0,0) and
(2,0). -/
def c1Input : Bitmap := ((Bitmap.create 3 3).set 0 0 true).set 2 0 true

/-- C1: the parent-polarity invariant FAILS on `c1Input`: extraction produces
two contours, and the contour of pixel (2,0) (node 1) is linked as a child of
the contour of pixel (0,0) (node 0) although both have `isHole = false`.
(`findFirstBoundingContour`'s box test has no lower bound, so the stale
`lnbd` label passes it, and the `if (parent)` fix-up guard treats node id 0
as falsy, skipping both the correction and the polarity assert.) -/
theorem contour_parent_same_polarity :
    (∀ x < 3, ∀ y < 3, (c1Input.get x y = true ↔ ((x = 0 ∨ x = 2) ∧ y = 0))) ∧
    (ContourExtractor.extractContours
      (ContourExtractor.fromBitmap c1Input ContourApproximation.None)).values.length = 2 ∧
    (ContourExtractor.extractContours
      (ContourExtractor.fromBitmap c1Input ContourApproximation.None)).getParent 1 = some 0 ∧
    ((ContourExtractor.extractContours
      (ContourExtractor.fromBitmap c1Input ContourApproximation.None)).get 0).isHole = false ∧
    ((ContourExtractor.extractContours
      (ContourExtractor.fromBitmap c1Input ContourApproximation.None)).get 1).isHole
      = false := by decide

/-- 5x5 bitmap whose set cells are exactly those with 1 <= x <= 3,
1 <= y <= 3. -/
def c2Input : Bitmap := Bitmap.fromBooleanMatrix
  [[false, false, false, false, false],
   [false, true, true, true, false],
   [false, true, true, true, false],
   [false, true, true, true, false],
   [false, false, false, false, false]]

/-- C2: on the 5x5 bitmap with cells (1..3, 1..3) set, extraction with Simple
approximation yields exactly one root whose contour has `isHole = false`,
point list `[[1,1],[3,1],[3,3],[1,3]]` in that order, and bounding box
`[2,2,3,3]`. -/
theorem extract_rect_simple :
    (∀ x < 5, ∀ y < 5,
      (c2Input.get x y = true ↔ (1 ≤ x ∧ x ≤ 3 ∧ 1 ≤ y ∧ y ≤ 3))) ∧
    (ContourExtractor.extractContours
      (ContourExtractor.fromBitmap c2Input ContourApproximation.Simple)).getRoots = [0] ∧
    ((ContourExtractor.extractContours
      (ContourExtractor.fromBitmap c2Input ContourApproximation.Simple)).get 0).isHole
      = false ∧
    ((ContourExtractor.extractContours
      (ContourExtractor.fromBitmap c2Input ContourApproximation.Simple)).get 0).points
      = [(1, 1), (3, 1), (3, 3), (1, 3)] ∧
    ((ContourExtractor.extractContours
      (ContourExtractor.fromBitmap c2Input ContourApproximation.Simple)).get 0).boundingBox
      = ⟨2, 2, 3, 3⟩ := by decide

end Creagen
